import Mathlib

/-!
A verification development for the transaction model of
`bigchaindb/common/transaction.py`: the data model (Input, Output,
TransactionLink, Transaction), canonical serialization and hashing,
the signing engine, and the validator, embedded shallowly in Lean.

External collaborators of the module (the `cryptoconditions` package,
`bigchaindb.common.utils.serialize`, `bigchaindb.common.crypto`) are not
part of the analysed sources; they are modelled from the specification:
each such definition carries a doc comment starting with
`Modelled from the spec:`.
-/

/-! ## Decimal strings

Modelled from the spec: `amount` is serialized as a decimal string and
parsed back on ingest (Python `str` / `int`).  The parser accepts an
optional leading minus sign followed by a non-empty digit string; this is
the fragment of Python `int()` exercised by the module. -/

/-- Little-endian decimal digits of `n`, with explicit fuel so that the
kernel can evaluate it (`fuel ≥ n` suffices). -/
def toRevDigits : Nat → Nat → List Nat
  | 0, _ => []
  | fuel + 1, n => if n = 0 then [] else n % 10 :: toRevDigits fuel (n / 10)

/-- Modelled from the spec: Python `str` on a natural number. -/
def natStr (n : Nat) : String :=
  if n = 0 then "0" else String.mk (((toRevDigits n n).reverse).map Nat.digitChar)

/-- Modelled from the spec: Python `str` on an `int`. -/
def pyStr (n : Int) : String :=
  if n < 0 then "-" ++ natStr n.natAbs else natStr n.toNat

/-- Value of a decimal digit character. -/
def parseDigit (c : Char) : Option Nat :=
  if '0' ≤ c ∧ c ≤ '9' then some (c.toNat - '0'.toNat) else none

/-- Parse a non-empty big-endian digit string. -/
def parseNat : List Char → Option Nat
  | [] => none
  | cs => (cs.mapM parseDigit).map (List.foldl (fun a d => a * 10 + d) 0)

/-- Modelled from the spec: Python `int()` applied to a string, as used on
ingested amounts (`ValueError` is represented by `none`). -/
def pyInt? (s : String) : Option Int :=
  match s.toList with
  | [] => none
  | c :: cs =>
      if c = '-' then (parseNat cs).map (fun n => -(n : Int))
      else (parseNat (c :: cs)).map (fun n => (n : Int))

theorem parseDigit_digitChar (d : Nat) (h : d < 10) :
    parseDigit (Nat.digitChar d) = some d := by
  interval_cases d <;> rfl

theorem toRevDigits_lt_ten : ∀ fuel n d, d ∈ toRevDigits fuel n → d < 10 := by
  intro fuel
  induction fuel with
  | zero => intro n d h; simp [toRevDigits] at h
  | succ f ih =>
    intro n d h
    by_cases hn : n = 0
    · simp [toRevDigits, hn] at h
    · simp only [toRevDigits, if_neg hn, List.mem_cons] at h
      rcases h with h | h
      · subst h; omega
      · exact ih _ _ h

theorem mapM_parseDigit_digitChar :
    ∀ (l : List Nat), (∀ d ∈ l, d < 10) →
      (l.map Nat.digitChar).mapM parseDigit = some l := by
  intro l
  induction l with
  | nil => intro _; rfl
  | cons d ds ih =>
    intro h
    have hd : d < 10 := h d (by simp)
    have hds := ih (fun x hx => h x (by simp [hx]))
    simp only [List.map_cons, List.mapM_cons, parseDigit_digitChar d hd, hds]
    rfl

theorem foldl_toRevDigits_reverse :
    ∀ fuel n acc, n ≤ fuel →
      List.foldl (fun a d => a * 10 + d) acc ((toRevDigits fuel n).reverse) =
        acc * 10 ^ (toRevDigits fuel n).length + n := by
  intro fuel
  induction fuel with
  | zero => intro n acc h; interval_cases n; simp [toRevDigits]
  | succ f ih =>
    intro n acc h
    by_cases hn : n = 0
    · simp [toRevDigits, hn]
    · have hle : n / 10 ≤ f := by
        have := Nat.div_le_self n 10
        have h10 : n / 10 < n := Nat.div_lt_self (Nat.pos_of_ne_zero hn) (by omega)
        omega
      simp only [toRevDigits, if_neg hn, List.reverse_cons, List.foldl_append,
        List.foldl_cons, List.foldl_nil, List.length_cons]
      rw [ih (n / 10) acc hle]
      have : acc * 10 ^ (toRevDigits f (n / 10)).length * 10 =
          acc * 10 ^ ((toRevDigits f (n / 10)).length + 1) := by ring
      omega

theorem parseNat_natStr (n : Nat) : parseNat (natStr n).toList = some n := by
  by_cases hn : n = 0
  · subst hn; rfl
  · have hne : toRevDigits n n ≠ [] := by
      cases n with
      | zero => omega
      | succ m => simp [toRevDigits]
    have hdig : ∀ d ∈ ((toRevDigits n n).reverse), d < 10 := by
      intro d hd
      exact toRevDigits_lt_ten n n d (List.mem_reverse.mp hd)
    have hmap := mapM_parseDigit_digitChar ((toRevDigits n n).reverse) hdig
    have hfold := foldl_toRevDigits_reverse n n 0 (le_refl n)
    have hlist : (natStr n).toList = ((toRevDigits n n).reverse).map Nat.digitChar := by
      simp [natStr, hn, String.toList]
    rw [hlist]
    have hne' : ((toRevDigits n n).reverse).map Nat.digitChar ≠ [] := by
      simp [hne]
    unfold parseNat
    split
    · rename_i heq
      exact absurd heq hne'
    · rw [hmap]
      simp only [Option.map_some']
      rw [hfold]
      simp

theorem digitChar_ne_minus (d : Nat) (h : d < 10) : Nat.digitChar d ≠ '-' := by
  interval_cases d <;> decide

theorem pyInt?_pyStr (n : Int) (h : 0 ≤ n) : pyInt? (pyStr n) = some n := by
  have hstr : pyStr n = natStr n.toNat := by
    unfold pyStr
    rw [if_neg (by omega)]
  rw [hstr]
  set m := n.toNat with hm
  have hparse := parseNat_natStr m
  by_cases hm0 : m = 0
  · have hn0 : n = 0 := by omega
    subst hn0
    rfl
  · have hne : toRevDigits m m ≠ [] := by
      cases hmm : m with
      | zero => exact absurd hmm hm0
      | succ k =>
        simp [toRevDigits]
    have hlist : (natStr m).toList = ((toRevDigits m m).reverse).map Nat.digitChar := by
      simp [natStr, hm0, String.toList]
    unfold pyInt?
    rw [hlist] at hparse ⊢
    cases hrev : (toRevDigits m m).reverse with
    | nil =>
      rw [List.reverse_eq_nil_iff] at hrev
      exact absurd hrev hne
    | cons d ds =>
      have hd : d < 10 := by
        apply toRevDigits_lt_ten m m
        have : d ∈ (toRevDigits m m).reverse := by rw [hrev]; simp
        exact List.mem_reverse.mp this
      rw [hrev] at hparse
      simp only [List.map_cons]
      rw [if_neg (digitChar_ne_minus d hd)]
      rw [List.map_cons] at hparse
      rw [hparse]
      simp
      omega

/-! ## Canonical JSON

Modelled from the spec: `bigchaindb.common.utils.serialize` renders a
map as UTF-8 JSON with all object keys sorted recursively and no
insignificant whitespace (section 4.5 of the specification).  String
escaping covers the quote and backslash characters; the transaction
fields exercised here contain no other characters needing escapes. -/

inductive Json where
  | null
  | bool (b : Bool)
  | num (n : Int)
  | str (s : String)
  | arr (xs : List Json)
  | obj (fields : List (String × Json))

/-- Escape a character for inclusion in a JSON string literal. -/
def escChar (c : Char) : String :=
  if c = '"' then "\\\"" else if c = '\\' then "\\\\" else String.mk [c]

/-- Escape a string for inclusion in a JSON string literal. -/
def escape (s : String) : String :=
  String.join (s.toList.map escChar)

/-- Lexicographic order on character lists (byte order on the code
points, as the canonical encoder sorts keys). -/
def charListLt : List Char → List Char → Bool
  | [], [] => false
  | [], _ :: _ => true
  | _ :: _, [] => false
  | a :: ta, b :: tb =>
      if a.toNat < b.toNat then true
      else if b.toNat < a.toNat then false
      else charListLt ta tb

/-- Lexicographic order on strings. -/
def strLt (a b : String) : Bool :=
  charListLt a.toList b.toList

/-- Insert a key/value pair into a key-sorted field list. -/
def insertField (p : String × Json) : List (String × Json) → List (String × Json)
  | [] => [p]
  | q :: qs => if strLt p.1 q.1 then p :: q :: qs else q :: insertField p qs

/-- Sort a field list by key (insertion sort). -/
def sortFields (l : List (String × Json)) : List (String × Json) :=
  l.foldr insertField []

/-- Render JSON compactly with sorted keys; `fuel` bounds the recursion
depth and is always sufficient when instantiated with `Json.depth`. -/
def renderF : Nat → Json → String
  | 0, _ => ""
  | fuel + 1, j =>
    match j with
    | .null => "null"
    | .bool b => if b then "true" else "false"
    | .num n => pyStr n
    | .str s => "\"" ++ escape s ++ "\""
    | .arr xs => "[" ++ String.intercalate "," (xs.map (renderF fuel)) ++ "]"
    | .obj fs =>
        "\x7b" ++
          String.intercalate ","
            ((sortFields fs).map
              (fun p => "\"" ++ escape p.1 ++ "\":" ++ renderF fuel p.2)) ++
        "\x7d"

mutual

/-- Nesting depth of a JSON value. -/
def Json.depth : Json → Nat
  | .null | .bool _ | .num _ | .str _ => 1
  | .arr xs => 1 + Json.depthList xs
  | .obj fs => 1 + Json.depthFields fs

def Json.depthList : List Json → Nat
  | [] => 0
  | j :: js => max (Json.depth j) (Json.depthList js)

def Json.depthFields : List (String × Json) → Nat
  | [] => 0
  | p :: ps => max (Json.depth p.2) (Json.depthFields ps)

end

/-- Modelled from the spec: the canonical JSON encoder
(`rapidjson.dumps(..., sort_keys=True)` behind `utils.serialize`). -/
def renderJson (j : Json) : String :=
  renderF (Json.depth j) j

/-! ## Crypto-conditions

Modelled from the spec (section 4.1): the recursive condition tree with
Ed25519 leaves and threshold nodes, replacing the external
`cryptoconditions` package.  A signature records the signing key and the
signed message; `verify` is the idealized Ed25519 primitive: a signature
is valid for public key `pk` and message `m` exactly when it was
produced over `m` by a private key whose derived public key is `pk`.
The derivation of a public key from a private key
(`PrivateKey(...).get_verifying_key().encode()`) is kept abstract as a
parameter `gp` throughout. -/

structure Sig where
  sk : String
  msg : String
deriving DecidableEq

inductive CC where
  | ed25519 (pk : String) (sig : Option Sig)
  | threshold (k : Nat) (subs : List CC)

mutual

/-- Signature stripping: the condition side of a node, with all
signatures removed. -/
def CC.strip : CC → CC
  | .ed25519 pk _ => .ed25519 pk none
  | .threshold k subs => .threshold k (CC.stripList subs)

def CC.stripList : List CC → List CC
  | [] => []
  | c :: cs => CC.strip c :: CC.stripList cs

end

mutual

/-- Whether every Ed25519 leaf of the tree carries a signature. -/
def CC.fullySigned : CC → Bool
  | .ed25519 _ sig => sig.isSome
  | .threshold _ subs => CC.fullySignedList subs

def CC.fullySignedList : List CC → Bool
  | [] => true
  | c :: cs => CC.fullySigned c && CC.fullySignedList cs

end

mutual

/-- Render the condition URI of a (signature-stripped) node.
Modelled from the spec: the condition URI is a compact string depending
only on structure and keys; the exact characters of the real URI scheme
are irrelevant to the module, so a direct recursive rendering is used. -/
def CC.condEnc : CC → String
  | .ed25519 pk _ => "cc:ed25519:" ++ pk
  | .threshold k subs => "cc:threshold:" ++ natStr k ++ ":(" ++ CC.condEncList subs ++ ")"

def CC.condEncList : List CC → String
  | [] => ""
  | [c] => CC.condEnc c
  | c :: cs => CC.condEnc c ++ "," ++ CC.condEncList cs

end

/-- The `condition_uri` property of a fulfillment: the URI of its
signature-stripped form. -/
def CC.conditionUri (c : CC) : String :=
  CC.condEnc (CC.strip c)

mutual

/-- Render the fulfillment URI of a fully signed node.  Modelled from the
spec: the fulfillment URI encodes the full signed form. -/
def CC.ffillEnc : CC → String
  | .ed25519 pk sig =>
      "cf:ed25519:" ++ pk ++ ":" ++
        (match sig with
         | none => "-"
         | some s => "sig(" ++ s.sk ++ "," ++ s.msg ++ ")")
  | .threshold k subs => "cf:threshold:" ++ natStr k ++ ":(" ++ CC.ffillEncList subs ++ ")"

def CC.ffillEncList : List CC → String
  | [] => ""
  | [c] => CC.ffillEnc c
  | c :: cs => CC.ffillEnc c ++ "," ++ CC.ffillEncList cs

end

mutual

/-- Validate a fulfillment against a message.  Modelled from the spec:
an Ed25519 leaf is valid when its signature verifies for the leaf's
public key over the message; a threshold node is valid when at least
`threshold` of its subnodes are valid. -/
def CC.validate (gp : String → String) (msg : String) : CC → Bool
  | .ed25519 pk sig =>
      match sig with
      | none => false
      | some s => gp s.sk == pk && s.msg == msg
  | .threshold k subs => k ≤ CC.countValid gp msg subs

def CC.countValid (gp : String → String) (msg : String) : List CC → Nat
  | [] => 0
  | c :: cs =>
      (if CC.validate gp msg c then 1 else 0) + CC.countValid gp msg cs

end

mutual

/-- Whether an Ed25519 leaf with verifying key `vk` occurs in the tree
(the emptiness test on `get_subcondition_from_vk`).  Modelled from the
spec: `find_leaves_by_public_key` searches the tree recursively. -/
def CC.hasLeafVk (vk : String) : CC → Bool
  | .ed25519 pk _ => pk == vk
  | .threshold _ subs => CC.hasLeafVkList vk subs

def CC.hasLeafVkList (vk : String) : List CC → Bool
  | [] => false
  | c :: cs => CC.hasLeafVk vk c || CC.hasLeafVkList vk cs

end

mutual

/-- Sign every Ed25519 leaf whose public key is `vk` with private key
`sk` over `msg` (the loop over `get_subcondition_from_vk` results in
`_sign_threshold_signature_fulfillment`). -/
def CC.signMatching (vk sk msg : String) : CC → CC
  | .ed25519 pk sig =>
      if pk == vk then .ed25519 pk (some ⟨sk, msg⟩) else .ed25519 pk sig
  | .threshold k subs => .threshold k (CC.signMatchingList vk sk msg subs)

def CC.signMatchingList (vk sk msg : String) : List CC → List CC
  | [] => []
  | c :: cs => CC.signMatching vk sk msg c :: CC.signMatchingList vk sk msg cs

end

/-- `Ed25519Fulfillment.sign`: set the signature of a leaf.  Modelled
from the spec: `sign_leaf` sets the leaf signature. -/
def CC.leafSign (sk msg : String) : CC → CC
  | .ed25519 pk _ => .ed25519 pk (some ⟨sk, msg⟩)
  | .threshold k subs => .threshold k subs

/-- `serialize_uri` followed by `Fulfillment.from_uri`: succeeds exactly
when the tree is fully signed (an unsigned Ed25519 leaf makes
`serialize_uri` raise `TypeError`), and parsing a produced URI recovers
the tree.  Modelled from the spec: the fulfillment URI encodes the full
signed form, so the round-trip is the identity. -/
def CC.serializeUri (c : CC) : Option CC :=
  if c.fullySigned then some c else none

mutual

/-- The detail-map form of a node (`Fulfillment.to_dict`).  Modelled
from the spec: a map encoding the node recursively. -/
def CC.details : CC → Json
  | .ed25519 pk sig =>
      .obj [("type", .str "ed25519-sha-256"),
            ("public_key", .str pk),
            ("signature",
              match sig with
              | none => .null
              | some s => .str ("sig(" ++ s.sk ++ "," ++ s.msg ++ ")"))]
  | .threshold k subs =>
      .obj [("type", .str "threshold-sha-256"),
            ("threshold", .num k),
            ("subfulfillments", .arr (CC.detailsList subs))]

def CC.detailsList : List CC → List Json
  | [] => []
  | c :: cs => CC.details c :: CC.detailsList cs

end

/-! ## Serialized transaction forms

The dictionary (JSON map) forms produced by the `to_dict` methods.  The
fulfillment URI of an input is an opaque string produced by the external
library's injective encoder; the embedding keeps the encoded tree in the
`uri` constructor and renders it with `CC.ffillEnc` when the canonical
JSON string is needed. -/

inductive TxError where
  | amountError (m : String)
  | keypairMismatch (m : String)
  | assetIdMismatch
  | invalidHash (m : String)
  | valueErr (m : String)
  | typeErr (m : String)
  | invalidSignature
  | keyError
  | indexError
  | attrError
deriving DecidableEq

/-- The serialized form of an input's `fulfillment` field: either the
fulfillment URI of a signed tree or the detail map of an unsigned one. -/
inductive SerFulfillment where
  | uri (c : CC)
  | details (c : CC)

/-- Serialized `TransactionLink` (`{"txid": ..., "output": ...}`). -/
structure LinkDict where
  txid : Option String
  output : Option Nat

/-- Serialized `Input`. -/
structure InputDict where
  owners_before : List String
  fulfills : Option LinkDict
  fulfillment : Option SerFulfillment

/-- Serialized condition (`{"details": ..., "uri": ...}`); the `details`
key is absent for hashlock-style conditions. -/
structure ConditionDict where
  details : Option CC
  uri : String

/-- Serialized `Output`. -/
structure OutputDict where
  public_keys : Option (List String)
  condition : ConditionDict
  amount : String

/-- Serialized `Transaction`; `id` is `none` while the id has not been
attached (the key is absent from the map). -/
structure TxDict where
  inputs : List InputDict
  outputs : List OutputDict
  operation : String
  metadata : Option Json
  asset : Option Json
  version : String
  id : Option String

def optJsonStr : Option String → Json
  | none => .null
  | some s => .str s

def optJsonNat : Option Nat → Json
  | none => .null
  | some n => .num n

def LinkDict.toJson (l : LinkDict) : Json :=
  .obj [("txid", optJsonStr l.txid), ("output", optJsonNat l.output)]

def SerFulfillment.toJson : SerFulfillment → Json
  | .uri c => .str (CC.ffillEnc c)
  | .details c => CC.details c

def InputDict.toJson (i : InputDict) : Json :=
  .obj [("owners_before", .arr (i.owners_before.map Json.str)),
        ("fulfills", match i.fulfills with
                     | none => Json.null
                     | some l => l.toJson),
        ("fulfillment", match i.fulfillment with
                        | none => Json.null
                        | some f => f.toJson)]

def ConditionDict.toJson (c : ConditionDict) : Json :=
  match c.details with
  | none => .obj [("uri", .str c.uri)]
  | some d => .obj [("details", CC.details d), ("uri", .str c.uri)]

def OutputDict.toJson (o : OutputDict) : Json :=
  .obj [("public_keys", match o.public_keys with
                        | none => Json.null
                        | some l => .arr (l.map Json.str)),
        ("condition", o.condition.toJson),
        ("amount", .str o.amount)]

def optJson : Option Json → Json
  | none => .null
  | some j => j

def TxDict.toJson (d : TxDict) : Json :=
  .obj ([("inputs", .arr (d.inputs.map InputDict.toJson)),
         ("outputs", .arr (d.outputs.map OutputDict.toJson)),
         ("operation", .str d.operation),
         ("metadata", optJson d.metadata),
         ("asset", optJson d.asset),
         ("version", .str d.version)] ++
        (match d.id with
         | none => []
         | some i => [("id", Json.str i)]))

/-- `bigchaindb.common.utils.serialize` applied to a transaction map.
Modelled from the spec: deterministic canonical JSON (section 4.5). -/
def serialize (d : TxDict) : String :=
  renderJson d.toJson

/-! ## The transaction data model -/

/-- `TransactionLink`: unidirectional reference to an output. -/
structure TransactionLink where
  txid : Option String
  output : Option Nat

def TransactionLink.to_dict (l : TransactionLink) : Option LinkDict :=
  if l.txid = none ∧ l.output = none then none
  else some ⟨l.txid, l.output⟩

def TransactionLink.from_dict : Option LinkDict → TransactionLink
  | none => ⟨none, none⟩
  | some l => ⟨l.txid, l.output⟩

/-- `Input`: spends an output by presenting a fulfillment.  The typed
embedding requires the fulfillment to be a condition tree; the dynamic
source would accept any value but crashes on first use otherwise. -/
structure Input where
  fulfillment : CC
  owners_before : List String
  fulfills : Option TransactionLink

def Input.to_dict (i : Input) : InputDict :=
  { owners_before := i.owners_before,
    fulfills := i.fulfills.bind TransactionLink.to_dict,
    fulfillment :=
      some (match i.fulfillment.serializeUri with
            | some u => .uri u
            | none => .details i.fulfillment) }

def Input.from_dict (d : InputDict) : Except TxError Input :=
  match d.fulfillment with
  | none => .error (.typeErr "Fulfillment.from_dict(None)")
  | some (.uri c) =>
      .ok ⟨c, d.owners_before, some (TransactionLink.from_dict d.fulfills)⟩
  | some (.details c) =>
      .ok ⟨c, d.owners_before, some (TransactionLink.from_dict d.fulfills)⟩

/-- The fulfillment of an `Output`: a condition tree, or the bare
condition URI string of the hashlock variant. -/
inductive OutFulfillment where
  | cc (c : CC)
  | strF (s : String)

structure Output where
  fulfillment : OutFulfillment
  public_keys : Option (List String)
  amount : Int

def Output.MAX_AMOUNT : Int := 9 * 10 ^ 18

/-- `Output.__init__`: validates the amount bounds (`TypeError` cases are
excluded by typing). -/
def Output.init (fulfillment : OutFulfillment) (public_keys : Option (List String))
    (amount : Int) : Except TxError Output :=
  if amount < 1 then .error (.amountError "`amount` must be greater than 0")
  else if Output.MAX_AMOUNT < amount then
    .error (.amountError "`amount` must be <= 9000000000000000000")
  else .ok ⟨fulfillment, public_keys, amount⟩

def Output.to_dict (o : Output) : OutputDict :=
  { public_keys := o.public_keys,
    condition :=
      match o.fulfillment with
      | .cc f => ⟨some f, f.conditionUri⟩
      | .strF s => ⟨none, s⟩,
    amount := pyStr o.amount }

def Output.from_dict (d : OutputDict) : Except TxError Output :=
  let fulfillment : OutFulfillment :=
    match d.condition.details with
    | some c => .cc c
    | none => .strF d.condition.uri
  match pyInt? d.amount with
  | none => .error (.amountError ("Invalid amount: " ++ d.amount))
  | some n => Output.init fulfillment d.public_keys n

/-- `output.fulfillment.condition_uri`, as read by `inputs_valid`
on referenced outputs (`AttributeError` on the hashlock string form). -/
def Output.condition_uri_of (o : Output) : Except TxError String :=
  match o.fulfillment with
  | .cc f => .ok f.conditionUri
  | .strF _ => .error .attrError

structure Transaction where
  operation : String
  asset : Option Json
  inputs : List Input
  outputs : List Output
  metadata : Option Json
  version : String

def Transaction.CREATE : String := "CREATE"
def Transaction.TRANSFER : String := "TRANSFER"
def Transaction.GENESIS : String := "GENESIS"
def Transaction.ALLOWED_OPERATIONS : List String :=
  [Transaction.CREATE, Transaction.TRANSFER, Transaction.GENESIS]

/-- Modelled from the spec: the `"<major>.<minor>"` version string
derived from `bigchaindb.version` (not among the analysed sources). -/
def Transaction.VERSION : String := "0.9"

def isObjOpt : Option Json → Bool
  | none => true
  | some (.obj _) => true
  | some _ => false

def objHasKey (j : Option Json) (k : String) : Bool :=
  match j with
  | some (.obj fs) => (fs.map Prod.fst).contains k
  | _ => false

/-- `Transaction.__init__`: operation, asset-shape and metadata checks,
with `None` defaults for inputs, outputs and version. -/
def Transaction.init (operation : String) (asset : Option Json)
    (inputs : Option (List Input)) (outputs : Option (List Output))
    (metadata : Option Json) (version : Option String) :
    Except TxError Transaction :=
  if !(Transaction.ALLOWED_OPERATIONS.contains operation) then
    .error (.valueErr "`operation` must be one of CREATE, TRANSFER, GENESIS")
  else if (operation == Transaction.CREATE || operation == Transaction.GENESIS) &&
      asset.isSome && !(objHasKey asset "data") then
    .error (.typeErr "`asset` must be None or a dict holding a `data` property")
  else if operation == Transaction.TRANSFER && !(objHasKey asset "id") then
    .error (.typeErr "`asset` must be a dict holding an `id` property")
  else if !(isObjOpt metadata) then
    .error (.typeErr "`metadata` must be a dict or None")
  else
    .ok { operation := operation, asset := asset,
          inputs := inputs.getD [], outputs := outputs.getD [],
          metadata := metadata, version := version.getD Transaction.VERSION }

/-- The transaction map before the id is attached (the `tx` literal built
inside `Transaction.to_dict`). -/
def Transaction.to_dict_body (t : Transaction) : TxDict :=
  { inputs := t.inputs.map Input.to_dict,
    outputs := t.outputs.map Output.to_dict,
    operation := t.operation,
    metadata := t.metadata,
    asset := t.asset,
    version := t.version,
    id := none }

/-- `Transaction._remove_signatures`: deep copy with every input's
`fulfillment` field replaced by `None`. -/
def Transaction.remove_signatures (d : TxDict) : TxDict :=
  { d with inputs := d.inputs.map (fun i => { i with fulfillment := none }) }

/-- `Transaction.to_dict`, parametrized by the hash primitive `hd`
(`hash_data`, SHA3-256 hex, kept abstract). -/
def Transaction.to_dict (hd : String → String) (t : Transaction) : TxDict :=
  let tx := t.to_dict_body
  { tx with id := some (hd (serialize (Transaction.remove_signatures tx))) }

/-- The `id` property (`to_hash`). -/
def Transaction.txid (hd : String → String) (t : Transaction) : String :=
  hd (serialize (Transaction.remove_signatures t.to_dict_body))

/-- `Transaction.validate_id` on a map value (the mutation-free verdict;
the aliasing behaviour is modelled separately in the heap section). -/
def Transaction.validate_id (hd : String → String) (d : TxDict) :
    Except TxError Unit :=
  match d.id with
  | none => .error (.invalidHash "No transaction id found!")
  | some proposed =>
      let valid := hd (serialize (Transaction.remove_signatures { d with id := none }))
      if proposed = valid then .ok () else .error (.invalidHash proposed)

def Transaction.from_dict (hd : String → String) (d : TxDict) :
    Except TxError Transaction := do
  Transaction.validate_id hd d
  let inputs ← d.inputs.mapM Input.from_dict
  let outputs ← d.outputs.mapM Output.from_dict
  Transaction.init d.operation d.asset (some inputs) (some outputs)
    d.metadata (some d.version)

/-! ## Signing engine -/

/-- The `pk -> sk` dictionary built in `Transaction.sign`; a Python dict
comprehension lets later entries overwrite earlier ones, hence the
reversed lookup. -/
def mkKeyPairs (gp : String → String) (private_keys : List String) :
    List (String × String) :=
  private_keys.map (fun sk => (gp sk, sk))

def dictGet (kps : List (String × String)) (k : String) : Option String :=
  kps.reverse.lookup k

/-- Python `set(...)` over owner keys, as a duplicate-free list keeping
first occurrences (iteration order of a `set` is unspecified; any
enumeration of the distinct elements models it). -/
def pySet (l : List String) : List String :=
  l.foldl (fun acc s => if acc.contains s then acc else acc ++ [s]) []

/-- The message each input is signed against and validated against: the
canonical serialization of the signature-stripped dictionary form of the
partial transaction carrying only this input (shared by
`Transaction.sign` and `Transaction._inputs_valid`). -/
def partial_msg (hd : String → String) (t : Transaction) (inp : Input) : String :=
  serialize (Transaction.remove_signatures
    (Transaction.to_dict hd { t with inputs := [inp] }))

/-- `_sign_input`, dispatching on the fulfillment shape:
`_sign_simple_signature_fulfillment` for an Ed25519 leaf and
`_sign_threshold_signature_fulfillment` for a threshold root. -/
def sign_input (kps : List (String × String))
    (msg : String) (inp : Input) : Except TxError Input :=
  match inp.fulfillment with
  | .ed25519 _ _ =>
      match inp.owners_before.head? with
      | none => .error .indexError
      | some public_key =>
          match dictGet kps public_key with
          | none =>
              .error (.keypairMismatch
                ("Public key " ++ public_key ++
                 " is not a pair to any of the private keys"))
          | some sk =>
              .ok { inp with fulfillment := inp.fulfillment.leafSign sk msg }
  | .threshold _ _ => do
      let ff ← (pySet inp.owners_before).foldlM
        (fun f owner_before => do
          if f.hasLeafVk owner_before then
            match dictGet kps owner_before with
            | none =>
                Except.error (.keypairMismatch
                  ("Public key " ++ owner_before ++
                   " is not a pair to any of the private keys"))
            | some sk => Except.ok (f.signMatching owner_before sk msg)
          else
            Except.error (.keypairMismatch
              ("Public key " ++ owner_before ++
               " cannot be found in the fulfillment")))
        inp.fulfillment
      .ok { inp with fulfillment := ff }

/-- `Transaction.sign`: sign every input against its partial-transaction
message and replace it by the signed copy. -/
def Transaction.sign (gp hd : String → String) (t : Transaction)
    (private_keys : List String) : Except TxError Transaction := do
  let key_pairs := mkKeyPairs gp private_keys
  let newInputs ← t.inputs.mapM
    (fun inp => sign_input key_pairs (partial_msg hd t inp) inp)
  .ok { t with inputs := newInputs }

/-! ## Validator -/

/-- `Transaction._input_valid`. -/
def input_valid (gp : String → String) (operation : String)
    (tx_serialized : String) (inp : Input) (output_condition_uri : String) : Bool :=
  match inp.fulfillment.serializeUri with
  | none => false
  | some parsed_ffill =>
      let output_valid :=
        if operation == Transaction.CREATE || operation == Transaction.GENESIS then
          true
        else output_condition_uri == inp.fulfillment.conditionUri
      output_valid && CC.validate gp tx_serialized parsed_ffill

/-- Python `map(f, xs, ys, zs)`: truncates at the shortest iterable. -/
def pyMap3 {α β γ δ : Type} (f : α → β → γ → δ) :
    List α → List β → List γ → List δ
  | a :: la, b :: lb, c :: lc => f a b c :: pyMap3 f la lb lc
  | _, _, _ => []

/-- `Transaction._inputs_valid`: length check against the condition URIs,
then `all` over the per-input verdicts; `map` over inputs, outputs and
URIs truncates at the shortest of the three lists. -/
def Transaction.inputs_valid_aux (gp hd : String → String) (t : Transaction)
    (output_condition_uris : List String) : Except TxError Bool :=
  if t.inputs.length ≠ output_condition_uris.length then
    .error (.valueErr "Inputs and output_condition_uris must have the same count")
  else
    .ok ((pyMap3
      (fun inp _ uri => input_valid gp t.operation (partial_msg hd t inp) inp uri)
      t.inputs t.outputs output_condition_uris).all id)

/-- `Transaction.inputs_valid`. -/
def Transaction.inputs_valid (gp hd : String → String) (t : Transaction)
    (outputs : Option (List Output)) : Except TxError Bool :=
  if t.operation == Transaction.CREATE || t.operation == Transaction.GENESIS then
    t.inputs_valid_aux gp hd (t.inputs.map (fun _ => "dummyvalue"))
  else if t.operation == Transaction.TRANSFER then
    match outputs with
    | none => .error (.typeErr "'NoneType' object is not iterable")
    | some outs => do
        let uris ← outs.mapM Output.condition_uri_of
        t.inputs_valid_aux gp hd uris
  else .error (.typeErr "`operation` must be one of CREATE, TRANSFER, GENESIS")

/-! ## Derived inputs, asset ids -/

/-- `Transaction.to_inputs`.  An empty or absent `indices` list is falsy
in `indices or range(len(self.outputs))`, selecting every output.  The
typed embedding reports an error for a hashlock output (whose
`public_keys` is `None`, making `Input.__init__` raise `TypeError`). -/
def Transaction.to_inputs (hd : String → String) (t : Transaction)
    (indices : Option (List Nat)) : Except TxError (List Input) :=
  let idxs := match indices with
    | none => List.range t.outputs.length
    | some [] => List.range t.outputs.length
    | some l => l
  idxs.mapM (fun idx =>
    match t.outputs[idx]? with
    | none => .error .indexError
    | some o =>
        match o.fulfillment, o.public_keys with
        | .cc c, some pks =>
            .ok ⟨c, pks, some ⟨some (Transaction.txid hd t), some idx⟩⟩
        | _, none => .error (.typeErr "`owners_after` must be a list instance")
        | .strF _, some _ => .error (.typeErr "string fulfillment in Input"))

mutual

/-- Structural equality of JSON values (Python `==` on the set
elements built by `get_asset_id`). -/
def Json.beq : Json → Json → Bool
  | .null, .null => true
  | .bool a, .bool b => a == b
  | .num a, .num b => a == b
  | .str a, .str b => a == b
  | .arr a, .arr b => Json.beqList a b
  | .obj a, .obj b => Json.beqFields a b
  | _, _ => false

def Json.beqList : List Json → List Json → Bool
  | [], [] => true
  | a :: la, b :: lb => Json.beq a b && Json.beqList la lb
  | _, _ => false

def Json.beqFields : List (String × Json) → List (String × Json) → Bool
  | [], [] => true
  | a :: la, b :: lb => (a.1 == b.1 && Json.beq a.2 b.2) && Json.beqFields la lb
  | _, _ => false

end

/-- Distinct elements of a list of JSON values (the set built by
`get_asset_id`). -/
def jsonSet (l : List Json) : List Json :=
  l.foldl (fun acc j => if acc.any (Json.beq j) then acc else acc ++ [j]) []

/-- `Transaction.get_asset_id` on a list of transactions: the asset id of
a transaction is `tx.id` when its operation is `CREATE`, otherwise
`tx.asset['id']` (a `KeyError` when the asset map has no such key). -/
def Transaction.get_asset_id (hd : String → String)
    (transactions : List Transaction) : Except TxError Json := do
  let asset_ids ← transactions.mapM (fun tx =>
    if tx.operation == Transaction.CREATE then
      Except.ok (Json.str (Transaction.txid hd tx))
    else
      match tx.asset with
      | some (.obj fs) =>
          match fs.lookup "id" with
          | some v => Except.ok v
          | none => Except.error TxError.keyError
      | _ => Except.error (.typeErr "'NoneType' object is not subscriptable"))
  let ids := jsonSet asset_ids
  if ids.length > 1 then
    .error .assetIdMismatch
  else
    match ids with
    | [] => .error .keyError
    | a :: _ => .ok a

/-! ## Owner specifications and `Output.generate` -/

/-- An element of the owner specification accepted by `Output.generate`:
a public key string, a pre-built crypto-condition, or a nested sublist. -/
inductive OSpec where
  | pk (s : String)
  | cond (c : CC)
  | sub (l : List OSpec)

def OSpec.isList : OSpec → Bool
  | .sub _ => true
  | _ => false

/-- `ThresholdSha256Fulfillment.add_subfulfillment`. -/
def CC.add_subfulfillment : CC → CC → CC
  | .threshold k subs, s => .threshold k (subs ++ [s])
  | c, _ => c

mutual

/-- `Output._gen_condition(initial, new_public_keys)`. -/
def gen_condition : CC → OSpec → Except TxError CC
  | initial, .sub l =>
      if 1 < l.length then do
        let ffill ← gen_condition_fold (CC.threshold l.length []) l
        .ok (initial.add_subfulfillment ffill)
      else .error (.valueErr "Sublist cannot contain single owner")
  | initial, .pk s => .ok (initial.add_subfulfillment (.ed25519 s none))
  | initial, .cond c => .ok (initial.add_subfulfillment c)

/-- `functools.reduce(cls._gen_condition, new_public_keys, ffill)`. -/
def gen_condition_fold : CC → List OSpec → Except TxError CC
  | acc, [] => .ok acc
  | acc, s :: rest => do
      let acc' ← gen_condition acc s
      gen_condition_fold acc' rest

end

/-- The `Output` object built by `Output.generate`; in the source the
`public_keys` attribute receives the owner-specification list verbatim,
which the typed embedding carries with its own type. -/
structure GeneratedOutput where
  fulfillment : OutFulfillment
  public_keys : List OSpec
  amount : Int

/-- The amount bounds re-checked by `Output.__init__` when
`Output.generate` constructs its result. -/
def genOut (fulfillment : OutFulfillment) (public_keys : List OSpec)
    (amount : Int) : Except TxError GeneratedOutput :=
  if amount < 1 then .error (.amountError "`amount` must be greater than 0")
  else if Output.MAX_AMOUNT < amount then
    .error (.amountError "`amount` must be <= 9000000000000000000")
  else .ok ⟨fulfillment, public_keys, amount⟩

/-- `Output.generate`. -/
def Output.generate (public_keys : List OSpec) (amount : Int) :
    Except TxError GeneratedOutput :=
  if amount < 1 then .error (.amountError "`amount` needs to be greater than zero")
  else if public_keys.length = 0 then
    .error (.valueErr "`public_keys` needs to contain at least one owner")
  else
    match public_keys with
    | [.pk s] => genOut (.cc (.ed25519 s none)) public_keys amount
    | [.cond c] => genOut (.cc c) public_keys amount
    | _ => do
        let threshold_cond ←
          gen_condition_fold (CC.threshold public_keys.length []) public_keys
        genOut (.cc threshold_cond) public_keys amount

mutual

/-- The condition node described by the specification for one owner-spec
item: a bare Ed25519 leaf for a public key, the condition itself for a
pre-built node, and an N-of-N threshold over a sublist of length N > 1;
sublists of length at most one are rejected (`none`). -/
def specNode : OSpec → Option CC
  | .pk s => some (.ed25519 s none)
  | .cond c => some c
  | .sub l =>
      if l.length ≤ 1 then none
      else (specNodeList l).map (fun subs => .threshold l.length subs)

def specNodeList : List OSpec → Option (List CC)
  | [] => some []
  | s :: rest =>
      match specNode s with
      | none => none
      | some c => (specNodeList rest).map (fun cs => c :: cs)

end

/-! ## A heap model for `validate_id`

`Transaction.validate_id` receives a reference to a caller-owned map and
pops the `id` key from a deep copy; an object store of transaction maps
makes the aliasing explicit so that the absence of caller-visible
mutation is a theorem rather than a modelling assumption. -/

/-- An object store; references are list indices. -/
abbrev Store := List TxDict

/-- `copy.deepcopy`: allocate a fresh object holding the same value. -/
def Store.deepcopy (h : Store) (r : Nat) (dflt : TxDict) : Nat × Store :=
  (List.length h, List.concat h ((List.getD h r dflt)))

/-- `tx_body.pop('id')`: return the popped value (if any) and mutate the
object at `r` in place. -/
def Store.popId (h : Store) (r : Nat) (dflt : TxDict) : Option String × Store :=
  let d := List.getD h r dflt
  (d.id, List.set h r { d with id := none })

/-- `Transaction.validate_id` acting on the store: deep-copy the
argument, pop the id from the copy, recompute the hash of the
signature-stripped body, and compare. -/
def validate_id_heap (hd : String → String) (h : Store) (r : Nat)
    (dflt : TxDict) : Except TxError Unit × Store :=
  let (r', h1) := Store.deepcopy h r dflt
  let (popped, h2) := Store.popId h1 r' dflt
  match popped with
  | none => (.error (.invalidHash "No transaction id found!"), h2)
  | some proposed_tx_id =>
      let tx_body := List.getD h2 r' dflt
      let valid_tx_id := hd (serialize (Transaction.remove_signatures tx_body))
      if proposed_tx_id = valid_tx_id then (.ok (), h2)
      else (.error (.invalidHash proposed_tx_id), h2)

/-! ## Specification-side definitions used in claim statements -/

/-- `compute_id` of the specification (section 4.5): remove the `id`
key, strip signatures, canonically serialize, hash. -/
def compute_id (hd : String → String) (d : TxDict) : String :=
  hd (serialize (Transaction.remove_signatures { d with id := none }))

/-- Rewrite every input's serialized `fulfillment` field of a transaction
map through `g` (stripping or otherwise altering the signatures while
leaving owners and links intact). -/
def alter_fulfillments (g : Option SerFulfillment → Option SerFulfillment)
    (d : TxDict) : TxDict :=
  { d with inputs := d.inputs.map (fun i => { i with fulfillment := g i.fulfillment }) }

/-- CLAIM C1: the id produced by `to_dict` is the hash of the canonical
serialization of the body with the `id` field absent and every input's
`fulfillment` replaced by null; recomputing the id from `to_dict`'s
result yields the transaction's id; and the id is unchanged by stripping
or altering any input's serialized fulfillment. -/
theorem claim_C1 (hd : String → String) (T : Transaction)
    (g : Option SerFulfillment → Option SerFulfillment) :
    (Transaction.to_dict hd T).id
        = some (hd (serialize (Transaction.remove_signatures T.to_dict_body)))
    ∧ compute_id hd (Transaction.to_dict hd T) = Transaction.txid hd T
    ∧ compute_id hd (alter_fulfillments g (Transaction.to_dict hd T))
        = compute_id hd (Transaction.to_dict hd T) := by
  refine ⟨rfl, rfl, ?_⟩
  show hd (serialize (Transaction.remove_signatures _)) = _
  have : Transaction.remove_signatures
      { alter_fulfillments g (Transaction.to_dict hd T) with id := none } =
      Transaction.remove_signatures { Transaction.to_dict hd T with id := none } := by
    simp only [Transaction.remove_signatures, alter_fulfillments, List.map_map]
    rfl
  rw [this]
  rfl

/-- An `AmountError` outcome. -/
def isAmountError {α : Type} : Except TxError α → Prop
  | .error (.amountError _) => True
  | _ => False

/-- CLAIM C6: `Output` construction succeeds exactly for
`1 ≤ amount ≤ 9·10^18` and raises `AmountError` otherwise; serialization
renders the amount as a decimal string; `Output.from_dict` parses that
string and revalidates it against the same bounds, raising `AmountError`
on an unparseable or out-of-range amount. -/
theorem claim_C6 (ff : OutFulfillment) (pks : Option (List String))
    (amount : Int) (o : Output) (d : OutputDict) :
    ((∃ o', Output.init ff pks amount = .ok o') ↔
        1 ≤ amount ∧ amount ≤ Output.MAX_AMOUNT)
    ∧ (¬ (1 ≤ amount ∧ amount ≤ Output.MAX_AMOUNT) →
        isAmountError (Output.init ff pks amount))
    ∧ (Output.to_dict o).amount = pyStr o.amount
    ∧ (pyInt? d.amount = none → isAmountError (Output.from_dict d))
    ∧ (∀ n, pyInt? d.amount = some n →
        ∃ ffd, Output.from_dict d = Output.init ffd d.public_keys n)
    ∧ (isAmountError (Output.from_dict d) ↔
        (pyInt? d.amount = none ∨
         ∃ n, pyInt? d.amount = some n ∧ ¬ (1 ≤ n ∧ n ≤ Output.MAX_AMOUNT))) := by
  have hinit : ∀ (f : OutFulfillment) (p : Option (List String)) (a : Int),
      (1 ≤ a ∧ a ≤ Output.MAX_AMOUNT → Output.init f p a = .ok ⟨f, p, a⟩) ∧
      (¬ (1 ≤ a ∧ a ≤ Output.MAX_AMOUNT) → isAmountError (Output.init f p a)) := by
    intro f p a
    constructor
    · intro ⟨h1, h2⟩
      unfold Output.init
      rw [if_neg (by omega), if_neg (by omega)]
    · intro h
      unfold Output.init
      by_cases hlt : a < 1
      · rw [if_pos hlt]; trivial
      · rw [if_neg hlt, if_pos (by omega)]; trivial
  have hfd_none : ∀ (dd : OutputDict), pyInt? dd.amount = none →
      Output.from_dict dd =
        .error (.amountError ("Invalid amount: " ++ dd.amount)) := by
    intro dd hn
    unfold Output.from_dict
    rw [hn]
  have hfd_some : ∀ (dd : OutputDict) (n : Int), pyInt? dd.amount = some n →
      Output.from_dict dd =
        Output.init
          (match dd.condition.details with
           | some c => OutFulfillment.cc c
           | none => OutFulfillment.strF dd.condition.uri)
          dd.public_keys n := by
    intro dd n hn
    unfold Output.from_dict
    rw [hn]
  refine ⟨?_, (hinit ff pks amount).2, rfl, ?_, ?_, ?_⟩
  · constructor
    · intro ⟨o', ho⟩
      by_contra hb
      have := (hinit ff pks amount).2 hb
      rw [ho] at this
      exact this
    · intro hb
      exact ⟨⟨ff, pks, amount⟩, (hinit ff pks amount).1 hb⟩
  · intro hnone
    rw [hfd_none d hnone]
    trivial
  · intro n hn
    rw [hfd_some d n hn]
    exact ⟨_, rfl⟩
  · cases hp : pyInt? d.amount with
    | none =>
      rw [hfd_none d hp]
      constructor
      · intro _; exact Or.inl rfl
      · intro _; trivial
    | some n =>
      rw [hfd_some d n hp]
      constructor
      · intro herr
        refine Or.inr ⟨n, rfl, ?_⟩
        intro hb
        rw [(hinit _ d.public_keys n).1 hb] at herr
        exact herr
      · rintro (hno | ⟨n', hn', hb⟩)
        · exact Option.noConfusion hno
        · injection hn' with hnn
          cases hnn
          exact (hinit _ d.public_keys n).2 hb

/-- Witness for C6 at concrete inputs: amount 5 is accepted, amount 0 is
an `AmountError`, `to_dict` renders `"5"`, and `from_dict` on the
unparseable amount `"abc"` is an `AmountError`. -/
theorem claim_C6_witness :
    (∃ o', Output.init (.strF "u") none 5 = .ok o')
    ∧ isAmountError (Output.init (.strF "u") none 0)
    ∧ (Output.to_dict ⟨.strF "u", none, 5⟩).amount = pyStr 5
    ∧ isAmountError (Output.from_dict ⟨none, ⟨none, "u"⟩, "abc"⟩) := by
  refine ⟨((claim_C6 (.strF "u") none 5 ⟨.strF "u", none, 5⟩
      ⟨none, ⟨none, "u"⟩, "abc"⟩).1).mpr (by decide),
    (claim_C6 (.strF "u") none 0 ⟨.strF "u", none, 5⟩
      ⟨none, ⟨none, "u"⟩, "abc"⟩).2.1 (by decide),
    (claim_C6 (.strF "u") none 5 ⟨.strF "u", none, 5⟩
      ⟨none, ⟨none, "u"⟩, "abc"⟩).2.2.1,
    (claim_C6 (.strF "u") none 5 ⟨.strF "u", none, 5⟩
      ⟨none, ⟨none, "u"⟩, "abc"⟩).2.2.2.1 (by decide)⟩

/-- CLAIM C10: `validate_id` never mutates its argument: whatever the
verdict, the caller's map object is unchanged in the store afterwards
(in particular it still holds its `id` field and every input
fulfillment). -/
theorem claim_C10 (hd : String → String) (h : Store) (r : Nat) (dflt : TxDict)
    (hr : r < List.length h) :
    ((validate_id_heap hd h r dflt).2)[r]? = h[r]? := by
  have hsnd : (validate_id_heap hd h r dflt).2 =
      List.set (h ++ [List.getD h r dflt]) (List.length h)
        { List.getD (h ++ [List.getD h r dflt]) (List.length h) dflt with id := none } := by
    unfold validate_id_heap Store.deepcopy Store.popId
    simp only [List.concat_eq_append]
    cases (List.getD (h ++ [List.getD h r dflt]) (List.length h) dflt).id with
    | none => rfl
    | some p =>
      simp only
      split <;> rfl
  rw [hsnd]
  rw [List.getElem?_set_ne (by omega)]
  rw [List.getElem?_append, if_pos hr]

/-- Witness for C10: a concrete one-object store; the object at
reference 0 is untouched by `validate_id`. -/
theorem claim_C10_witness :
    ((validate_id_heap (fun _ => "H")
        [({ inputs := [], outputs := [], operation := "CREATE",
            metadata := none, asset := none, version := "0.9",
            id := some "deadbeef" } : TxDict)] 0
        { inputs := [], outputs := [], operation := "CREATE",
          metadata := none, asset := none, version := "0.9",
          id := none }).2)[0]? =
      [({ inputs := [], outputs := [], operation := "CREATE",
          metadata := none, asset := none, version := "0.9",
          id := some "deadbeef" } : TxDict)][0]? :=
  claim_C10 (fun _ => "H")
    [({ inputs := [], outputs := [], operation := "CREATE",
        metadata := none, asset := none, version := "0.9",
        id := some "deadbeef" } : TxDict)] 0
    { inputs := [], outputs := [], operation := "CREATE",
      metadata := none, asset := none, version := "0.9",
      id := none } (by decide)

/-! ## C3: `get_asset_id` on a GENESIS transaction -/

def hdC3 : String → String := fun _ => "H"

def genesis_input : Input := ⟨.ed25519 "A" none, ["A"], none⟩

def genesis_output : Output := ⟨.cc (.ed25519 "A" none), some ["A"], 1⟩

/-- A well-formed GENESIS transaction (its asset payload holds `data`,
as `Transaction.__init__` requires for GENESIS). -/
def genesis_tx : Transaction :=
  { operation := "GENESIS", asset := some (.obj [("data", Json.null)]),
    inputs := [genesis_input], outputs := [genesis_output],
    metadata := none, version := "0.9" }

/-- CLAIM C3 (code bug): the constructor accepts `genesis_tx` — its
asset holds a `data` key and no `id` key — yet `get_asset_id` evaluates
`tx.asset['id']` for it (the code tests `operation == CREATE` only, not
GENESIS), so the call raises `KeyError` instead of returning the
transaction's own id as the claim and the specification state. -/
theorem claim_C3 :
    Transaction.init Transaction.GENESIS (some (.obj [("data", Json.null)]))
        (some [genesis_input]) (some [genesis_output]) none (some "0.9")
      = .ok genesis_tx
    ∧ Transaction.get_asset_id hdC3 [genesis_tx] = .error TxError.keyError :=
  ⟨rfl, rfl⟩

/-- Whether an output carries a condition tree and a public key list
(the shape `to_inputs` needs to build an `Input`). -/
def Output.isCCWithKeys (o : Output) : Bool :=
  (match o.fulfillment with | .cc _ => true | .strF _ => false) &&
    o.public_keys.isSome

/-- CLAIM C9: `to_inputs` treats an empty index list exactly like no
index list (both are falsy): one `Input` per output, carrying the
output's condition, its public keys as `owners_before`, and a
`TransactionLink` to `(T.id, index)`. -/
theorem claim_C9 (hd : String → String) (T : Transaction)
    (hwf : T.outputs.all Output.isCCWithKeys = true) :
    Transaction.to_inputs hd T (some []) = Transaction.to_inputs hd T none
    ∧ ∃ l, Transaction.to_inputs hd T none = .ok l
        ∧ l.length = T.outputs.length
        ∧ ∀ (idx : Nat) (o : Output) (c : CC) (pks : List String),
            T.outputs[idx]? = some o → o.fulfillment = .cc c →
            o.public_keys = some pks →
            l[idx]? = some ⟨c, pks, some ⟨some (Transaction.txid hd T), some idx⟩⟩ := by
  constructor
  · rfl
  · have hmapM : ∀ (f : Nat → Except TxError Input) (g : Nat → Input) (l : List Nat),
        (∀ i ∈ l, f i = .ok (g i)) → l.mapM f = .ok (l.map g) := by
      intro f g l
      induction l with
      | nil => intro _; rfl
      | cons a la ih =>
        intro hall
        rw [List.mapM_cons, hall a (by simp), ih (fun i hi => hall i (by simp [hi]))]
        rfl
    set f : Nat → Except TxError Input := fun idx =>
      match T.outputs[idx]? with
      | none => .error .indexError
      | some o =>
          match o.fulfillment, o.public_keys with
          | .cc c, some pks =>
              .ok ⟨c, pks, some ⟨some (Transaction.txid hd T), some idx⟩⟩
          | _, none => .error (.typeErr "`owners_after` must be a list instance")
          | .strF _, some _ => .error (.typeErr "string fulfillment in Input")
      with hf
    set g : Nat → Input := fun idx =>
      match T.outputs[idx]? with
      | some o =>
          match o.fulfillment, o.public_keys with
          | .cc c, some pks =>
              ⟨c, pks, some ⟨some (Transaction.txid hd T), some idx⟩⟩
          | _, _ => ⟨.ed25519 "" none, [], none⟩
      | none => ⟨.ed25519 "" none, [], none⟩
      with hg
    have hfg : ∀ i ∈ List.range T.outputs.length, f i = .ok (g i) := by
      intro i hi
      rw [List.mem_range] at hi
      rcases ho : T.outputs[i]? with _ | o
      · rw [List.getElem?_eq_none_iff] at ho
        omega
      · have hmem : o ∈ T.outputs := List.getElem?_mem ho
        have := List.all_eq_true.mp hwf o hmem
        unfold Output.isCCWithKeys at this
        rcases hff : o.fulfillment with c | s
      
        · rcases hpk : o.public_keys with _ | pks
          · rw [hff, hpk] at this
            simp at this
          · rw [hf, hg]
            simp only [ho, hff, hpk]
        · rw [hff] at this
          simp at this
    have := hmapM f g (List.range T.outputs.length) hfg
    refine ⟨(List.range T.outputs.length).map g, ?_, by simp, ?_⟩
    · show (List.range T.outputs.length).mapM f = _
      exact this
    · intro idx o c pks ho hc hp
      have hidx : idx < T.outputs.length := (List.getElem?_eq_some.mp ho).1
      rw [List.getElem?_map, List.getElem?_range hidx]
      simp only [Option.map_some']
      rw [hg]
      simp only [ho, hc, hp]

def c9_tx : Transaction :=
  { operation := "CREATE", asset := some (.obj [("data", .null)]),
    inputs := [], outputs := [⟨.cc (.ed25519 "A" none), some ["A"], 1⟩],
    metadata := none, version := "0.9" }

/-- Witness for C9 at a concrete one-output transaction. -/
theorem claim_C9_witness :
    Transaction.to_inputs hdC3 c9_tx (some []) = Transaction.to_inputs hdC3 c9_tx none
    ∧ ∃ l, Transaction.to_inputs hdC3 c9_tx none = .ok l
        ∧ l.length = c9_tx.outputs.length
        ∧ ∀ (idx : Nat) (o : Output) (c : CC) (pks : List String),
            c9_tx.outputs[idx]? = some o → o.fulfillment = .cc c →
            o.public_keys = some pks →
            l[idx]? = some ⟨c, pks, some ⟨some (Transaction.txid hdC3 c9_tx), some idx⟩⟩ :=
  claim_C9 hdC3 c9_tx (by decide)

mutual

def OSpec.size : OSpec → Nat
  | .pk _ => 1
  | .cond _ => 1
  | .sub l => 1 + OSpec.sizeList l

def OSpec.sizeList : List OSpec → Nat
  | [] => 0
  | s :: rest => OSpec.size s + OSpec.sizeList rest

end

theorem OSpec.size_pos : ∀ spec, 1 ≤ OSpec.size spec := by
  intro spec
  cases spec <;> simp [OSpec.size]

theorem gen_condition_specNode : ∀ n spec, OSpec.size spec ≤ n →
    ∀ (k : Nat) (acc : List CC),
    gen_condition (.threshold k acc) spec =
      (match specNode spec with
       | some c => .ok (.threshold k (acc ++ [c]))
       | none => .error (.valueErr "Sublist cannot contain single owner")) := by
  intro n
  induction n using Nat.strong_induction_on with
  | _ n ih =>
    intro spec hsz k acc
    match spec with
    | .pk s => rfl
    | .cond c => rfl
    | .sub l =>
      have hn1 : 1 ≤ n := le_trans (OSpec.size_pos _) hsz
      have hszl : OSpec.sizeList l ≤ n - 1 := by
        simp only [OSpec.size] at hsz
        omega
      have hfold : ∀ (ll : List OSpec), OSpec.sizeList ll ≤ n - 1 →
          ∀ (k' : Nat) (acc' : List CC),
          gen_condition_fold (.threshold k' acc') ll =
            (match specNodeList ll with
             | some cs => .ok (.threshold k' (acc' ++ cs))
             | none => .error (.valueErr "Sublist cannot contain single owner")) := by
        intro ll
        induction ll with
        | nil => intro _ k' acc'; simp [gen_condition_fold, specNodeList]
        | cons s rest ihl =>
          intro hsz' k' acc'
          have hsplit : OSpec.sizeList (s :: rest) =
              OSpec.size s + OSpec.sizeList rest := by
            simp [OSpec.sizeList]
          have hs : OSpec.size s ≤ n - 1 := by omega
          have hrest : OSpec.sizeList rest ≤ n - 1 := by omega
          have hstep := ih (n - 1) (by omega) s hs k' acc'
          show (do
            let acc'' ← gen_condition (.threshold k' acc') s
            gen_condition_fold acc'' rest) = _
          rw [hstep]
          cases hns : specNode s with
          | none =>
            show Except.error (TxError.valueErr "Sublist cannot contain single owner") = _
            simp [specNodeList, hns]
          | some c =>
            show gen_condition_fold (CC.threshold k' (acc' ++ [c])) rest = _
            rw [ihl hrest k' (acc' ++ [c])]
            simp only [specNodeList, hns]
            cases specNodeList rest with
            | none => rfl
            | some cs => simp
      show (if 1 < l.length then _ else _) = _
      by_cases hl : 1 < l.length
      · rw [if_pos hl]
        show (do
          let ffill ← gen_condition_fold (CC.threshold l.length []) l
          Except.ok ((CC.threshold k acc).add_subfulfillment ffill)) = _
        rw [hfold l hszl l.length []]
        cases hnl : specNodeList l with
        | none =>
          show Except.error (TxError.valueErr "Sublist cannot contain single owner") = _
          simp [specNode, hnl, Nat.not_le.mpr hl]
        | some cs =>
          show Except.ok ((CC.threshold k acc).add_subfulfillment
            (CC.threshold l.length ([] ++ cs))) = _
          simp [specNode, hnl, Nat.not_le.mpr hl, CC.add_subfulfillment]
      · rw [if_neg hl]
        simp [specNode, Nat.le_of_not_lt (by omega : ¬ 1 < l.length)]

theorem gen_condition_fold_specNodeList : ∀ (specs : List OSpec) (k : Nat) (acc : List CC),
    gen_condition_fold (.threshold k acc) specs =
      (match specNodeList specs with
       | some cs => .ok (.threshold k (acc ++ cs))
       | none => .error (.valueErr "Sublist cannot contain single owner")) := by
  intro specs
  induction specs with
  | nil => intro k acc; simp [gen_condition_fold, specNodeList]
  | cons s rest ihl =>
    intro k acc
    show (do
      let acc' ← gen_condition (.threshold k acc) s
      gen_condition_fold acc' rest) = _
    rw [gen_condition_specNode (OSpec.size s) s le_rfl k acc]
    cases hns : specNode s with
    | none =>
      show Except.error (TxError.valueErr "Sublist cannot contain single owner") = _
      simp [specNodeList, hns]
    | some c =>
      show gen_condition_fold (CC.threshold k (acc ++ [c])) rest = _
      rw [ihl k (acc ++ [c])]
      simp only [specNodeList, hns]
      cases specNodeList rest with
      | none => rfl
      | some cs => simp

theorem specNodeList_map_pk : ∀ keys : List String,
    specNodeList (keys.map OSpec.pk) =
      some (keys.map (fun s => CC.ed25519 s none)) := by
  intro keys
  induction keys with
  | nil => rfl
  | cons a t ih =>
    simp only [List.map_cons, specNodeList, specNode, ih, Option.map_some']

/-- CLAIM C8: `Output.generate` builds a bare Ed25519 leaf for a
singleton non-list owner item (the item itself when it is a pre-built
condition), an N-of-N threshold with one node per item for a list of
N > 1 items — descending recursively into sublists of length > 1, each
contributing one N-of-N subtree — and rejects any sublist of length at
most 1 with a `ValueError`. -/
theorem claim_C8 (amount : Int) (ha1 : 1 ≤ amount)
    (ha2 : amount ≤ Output.MAX_AMOUNT) :
    (∀ s, Output.generate [.pk s] amount = .ok ⟨.cc (.ed25519 s none), [.pk s], amount⟩)
    ∧ (∀ c, Output.generate [.cond c] amount = .ok ⟨.cc c, [.cond c], amount⟩)
    ∧ (∀ keys : List String, 2 ≤ keys.length →
        Output.generate (keys.map OSpec.pk) amount =
          .ok ⟨.cc (.threshold keys.length (keys.map (fun s => .ed25519 s none))),
               keys.map OSpec.pk, amount⟩)
    ∧ (∀ specs : List OSpec, 2 ≤ specs.length →
        (∀ subs, specNodeList specs = some subs →
          Output.generate specs amount =
            .ok ⟨.cc (.threshold specs.length subs), specs, amount⟩)
        ∧ (specNodeList specs = none →
          ∃ m, Output.generate specs amount = .error (.valueErr m)))
    ∧ (∀ l : List OSpec, l.length ≤ 1 → specNode (.sub l) = none) := by
  have hgen : ∀ (f : OutFulfillment) (p : List OSpec),
      genOut f p amount = .ok ⟨f, p, amount⟩ := by
    intro f p
    unfold genOut
    rw [if_neg (by omega), if_neg (by omega)]
  have hbig : ∀ specs : List OSpec, 2 ≤ specs.length →
      (∀ subs, specNodeList specs = some subs →
        Output.generate specs amount =
          .ok ⟨.cc (.threshold specs.length subs), specs, amount⟩)
      ∧ (specNodeList specs = none →
        ∃ m, Output.generate specs amount = .error (.valueErr m)) := by
    intro specs hlen
    match specs, hlen with
    | a :: b :: rest, _ =>
      have hred : Output.generate (a :: b :: rest) amount = (do
          let threshold_cond ←
            gen_condition_fold (CC.threshold (a :: b :: rest).length []) (a :: b :: rest)
          genOut (.cc threshold_cond) (a :: b :: rest) amount) := by
        unfold Output.generate
        rw [if_neg (by omega), if_neg (by simp)]
        cases a <;> rfl
      constructor
      · intro subs hsubs
        rw [hred, gen_condition_fold_specNodeList, hsubs]
        show genOut (.cc (.threshold (a :: b :: rest).length ([] ++ subs)))
          (a :: b :: rest) amount = _
        rw [List.nil_append]
        exact hgen _ _
      · intro hnone
        rw [hred, gen_condition_fold_specNodeList, hnone]
        exact ⟨_, rfl⟩
  refine ⟨?_, ?_, ?_, hbig, ?_⟩
  · intro s
    unfold Output.generate
    rw [if_neg (by omega), if_neg (by simp)]
    exact hgen _ _
  · intro c
    unfold Output.generate
    rw [if_neg (by omega), if_neg (by simp)]
    exact hgen _ _
  · intro keys hk
    have h2 : 2 ≤ (keys.map OSpec.pk).length := by simpa using hk
    have := (hbig (keys.map OSpec.pk) h2).1 _ (specNodeList_map_pk keys)
    simpa using this
  · intro l hl
    simp [specNode, hl]

/-- Witness for C8: a two-key flat list yields a 2-of-2 threshold over
two Ed25519 leaves; a singleton sublist is rejected. -/
theorem claim_C8_witness :
    Output.generate [.pk "A", .pk "B"] 1 =
      .ok ⟨.cc (.threshold 2 [.ed25519 "A" none, .ed25519 "B" none]),
           [.pk "A", .pk "B"], 1⟩
    ∧ Output.generate [.pk "A"] 1 = .ok ⟨.cc (.ed25519 "A" none), [.pk "A"], 1⟩
    ∧ specNode (.sub [.pk "A"]) = none :=
  ⟨(claim_C8 1 (by decide) (by decide)).2.2.1 ["A", "B"] (by decide),
   (claim_C8 1 (by decide) (by decide)).1 "A",
   (claim_C8 1 (by decide) (by decide)).2.2.2.2 [.pk "A"] (by decide)⟩

/-! ## C2: `inputs_valid` on TRANSFER transactions -/

theorem pyMap3_all_eq_true {α β γ : Type} (F : α → β → γ → Bool) :
    ∀ (la : List α) (lb : List β) (lc : List γ),
    ((pyMap3 (fun a b c => F a b c) la lb lc).all id = true ↔
      ∀ (i : Nat) a b c, la[i]? = some a → lb[i]? = some b → lc[i]? = some c →
        F a b c = true) := by
  intro la
  induction la with
  | nil =>
    intro lb lc
    constructor
    · intro _ i a b c ha _ _
      simp at ha
    · intro _
      rfl
  | cons x tx ih =>
    intro lb lc
    cases lb with
    | nil =>
      constructor
      · intro _ i a b c _ hb _
        simp at hb
      · intro _
        cases lc <;> rfl
    | cons y ty =>
      cases lc with
      | nil =>
        constructor
        · intro _ i a b c _ _ hc
          simp at hc
        · intro _
          rfl
      | cons z tz =>
        show ((F x y z :: pyMap3 _ tx ty tz).all id = true ↔ _)
        rw [List.all_cons, Bool.and_eq_true]
        constructor
        · rintro ⟨h0, hrest⟩ i a b c ha hb hc
          cases i with
          | zero =>
            simp only [List.getElem?_cons_zero, Option.some.injEq] at ha hb hc
            subst ha; subst hb; subst hc
            exact h0
          | succ j =>
            exact (ih ty tz).mp hrest j a b c (by simpa using ha)
              (by simpa using hb) (by simpa using hc)
        · intro hall
          refine ⟨hall 0 x y z (by simp) (by simp) (by simp), (ih ty tz).mpr ?_⟩
          intro j a b c ha hb hc
          exact hall (j + 1) a b c (by simpa using ha) (by simpa using hb)
            (by simpa using hc)

/-- Whether an output's fulfillment is a condition tree. -/
def Output.isCC (o : Output) : Bool :=
  match o.fulfillment with
  | .cc _ => true
  | .strF _ => false

/-- The condition URI of an output with a condition tree (defaulting for
the hashlock form, which `inputs_valid` cannot process). -/
def Output.condUriD (o : Output) : String :=
  match o.fulfillment with
  | .cc f => f.conditionUri
  | .strF _ => ""

theorem mapM_condition_uri : ∀ (outs : List Output),
    outs.all Output.isCC = true →
    outs.mapM Output.condition_uri_of = .ok (outs.map Output.condUriD) := by
  intro outs
  induction outs with
  | nil => intro _; rfl
  | cons o t ih =>
    intro h
    rw [List.all_cons, Bool.and_eq_true] at h
    rw [List.mapM_cons]
    rcases ho : o.fulfillment with f | s
    · have h1 : Output.condition_uri_of o = .ok f.conditionUri := by
        unfold Output.condition_uri_of
        rw [ho]
      have h2 : Output.condUriD o = f.conditionUri := by
        unfold Output.condUriD
        rw [ho]
      rw [h1, ih h.2]
      show Except.ok (f.conditionUri :: List.map Output.condUriD t) =
        Except.ok (List.map Output.condUriD (o :: t))
      rw [List.map_cons, h2]
    · exfalso
      have := h.1
      unfold Output.isCC at this
      rw [ho] at this
      exact Bool.noConfusion this

/-- The per-input success condition asserted by the claim for index `i`
of a TRANSFER transaction: the fulfillment URI parses, the condition URI
matches the referenced output's, and the signatures verify against the
canonical serialization of the signature-stripped partial transaction
holding only input `i`. -/
def claimed_input_ok (gp hd : String → String) (t : Transaction)
    (refOuts : List Output) (i : Nat) : Bool :=
  match t.inputs[i]?, refOuts[i]? with
  | some inp, some o =>
      inp.fulfillment.serializeUri.isSome &&
      (Output.condUriD o == inp.fulfillment.conditionUri) &&
      CC.validate gp (partial_msg hd t inp) inp.fulfillment
  | _, _ => false

theorem serializeUri_some_eq {c parsed : CC} (h : c.serializeUri = some parsed) :
    parsed = c := by
  unfold CC.serializeUri at h
  by_cases hf : c.fullySigned
  · rw [if_pos hf] at h
    injection h with h
    exact h.symm
  · rw [if_neg hf] at h
    exact Option.noConfusion h

theorem claimed_eq_input_valid (gp hd : String → String) (t : Transaction)
    (refOuts : List Output) (i : Nat) (inp : Input) (ro : Output)
    (hop : t.operation = Transaction.TRANSFER)
    (hi : t.inputs[i]? = some inp) (hro : refOuts[i]? = some ro) :
    claimed_input_ok gp hd t refOuts i =
      input_valid gp t.operation (partial_msg hd t inp) inp (Output.condUriD ro) := by
  unfold claimed_input_ok input_valid
  rw [hi, hro]
  cases hs : inp.fulfillment.serializeUri with
  | none => simp [hs]
  | some parsed =>
    have hpe := serializeUri_some_eq hs
    subst hpe
    have hb : (t.operation == Transaction.CREATE ||
        t.operation == Transaction.GENESIS) = false := by
      rw [hop]
      rfl
    rw [hb]
    simp [hs, Bool.and_assoc]

def gpC : String → String := fun s => s

def hdC : String → String := fun _ => "H"

def c2_link : TransactionLink := ⟨some "tid", some 0⟩

def c2_inp0u : Input := ⟨.ed25519 "A" none, ["A"], some c2_link⟩

def c2_inp1 : Input := ⟨.ed25519 "B" none, ["B"], some c2_link⟩

def c2_out : Output := ⟨.cc (.ed25519 "X" none), some ["X"], 1⟩

def c2_base : Transaction :=
  { operation := "TRANSFER", asset := some (.obj [("id", .str "aid")]),
    inputs := [], outputs := [c2_out], metadata := none, version := "0.9" }

def c2_m0 : String := partial_msg hdC c2_base c2_inp0u

def c2_inp0 : Input := { c2_inp0u with fulfillment := .ed25519 "A" (some ⟨"A", c2_m0⟩) }

/-- A TRANSFER transaction with two inputs but a single output; input 0
is correctly signed, input 1 is unsigned (its fulfillment URI cannot be
produced, so it can never validate). -/
def c2_tx : Transaction := { c2_base with inputs := [c2_inp0, c2_inp1] }

def c2_ro0 : Output := ⟨.cc (.ed25519 "A" none), some ["A"], 1⟩

def c2_ro1 : Output := ⟨.cc (.ed25519 "B" none), some ["B"], 1⟩

set_option maxRecDepth 100000 in
/-- CLAIM C2 counterexample: with two referenced outputs — the same
count as the inputs — `inputs_valid` returns `True` although input 1
satisfies none of the claimed per-input conditions: Python's `map`
over `(inputs, outputs, condition_uris)` stops at the single output, so
input 1 is never examined. -/
theorem claim_C2_counterexample :
    Transaction.inputs_valid gpC hdC c2_tx (some [c2_ro0, c2_ro1]) = .ok true
    ∧ claimed_input_ok gpC hdC c2_tx [c2_ro0, c2_ro1] 1 = false
    ∧ [c2_ro0, c2_ro1].length = c2_tx.inputs.length := ⟨by rfl, by rfl, rfl⟩

/-- CLAIM C2 amended: for a TRANSFER transaction and referenced outputs
of the same count as the inputs, `inputs_valid` returns true iff every
input index `i` below `min(#inputs, #outputs)` satisfies the claimed
conditions (URI parses, condition URI matches, signatures verify against
the stripped single-input partial transaction) — Python's 3-iterable
`map` silently skips inputs beyond the number of outputs; with differing
counts the call raises `ValueError`. -/
theorem claim_C2_amended (gp hd : String → String) (t : Transaction)
    (refOuts : List Output)
    (hop : t.operation = Transaction.TRANSFER)
    (hcc : refOuts.all Output.isCC = true) :
    (refOuts.length = t.inputs.length →
      (Transaction.inputs_valid gp hd t (some refOuts) = .ok true ↔
        ∀ i, i < min t.inputs.length t.outputs.length →
          claimed_input_ok gp hd t refOuts i = true))
    ∧ (refOuts.length ≠ t.inputs.length →
        Transaction.inputs_valid gp hd t (some refOuts) =
          .error (.valueErr "Inputs and output_condition_uris must have the same count")) := by
  have hb1 : (t.operation == Transaction.CREATE ||
      t.operation == Transaction.GENESIS) = false := by
    rw [hop]; rfl
  have hb2 : (t.operation == Transaction.TRANSFER) = true := by
    rw [hop]; rfl
  have hred : Transaction.inputs_valid gp hd t (some refOuts) =
      Transaction.inputs_valid_aux gp hd t (refOuts.map Output.condUriD) := by
    unfold Transaction.inputs_valid
    rw [hb1, hb2]
    rw [if_neg (by simp), if_pos rfl]
    show (do
      let uris ← refOuts.mapM Output.condition_uri_of
      Transaction.inputs_valid_aux gp hd t uris) = _
    rw [mapM_condition_uri refOuts hcc]
    rfl
  constructor
  · intro hlen
    rw [hred]
    unfold Transaction.inputs_valid_aux
    rw [if_neg (by simp [hlen])]
    constructor
    · intro h
      have hall : (pyMap3
          (fun inp _ uri => input_valid gp t.operation (partial_msg hd t inp) inp uri)
          t.inputs t.outputs (refOuts.map Output.condUriD)).all id = true := by
        injection h
      intro i hi
      have hi1 : i < t.inputs.length := lt_of_lt_of_le hi (min_le_left _ _)
      have hi2 : i < t.outputs.length := lt_of_lt_of_le hi (min_le_right _ _)
      have hi3 : i < refOuts.length := by omega
      have hginp : t.inputs[i]? = some t.inputs[i] := List.getElem?_eq_getElem hi1
      have hgout : t.outputs[i]? = some t.outputs[i] := List.getElem?_eq_getElem hi2
      have hgro : refOuts[i]? = some refOuts[i] := List.getElem?_eq_getElem hi3
      have hguri : (refOuts.map Output.condUriD)[i]? =
          some (Output.condUriD refOuts[i]) := by
        rw [List.getElem?_map, hgro]
        rfl
      have hF := (pyMap3_all_eq_true
        (fun inp _ uri => input_valid gp t.operation (partial_msg hd t inp) inp uri)
        t.inputs t.outputs (refOuts.map Output.condUriD)).mp hall i
        t.inputs[i] t.outputs[i] (Output.condUriD refOuts[i]) hginp hgout hguri
      rw [claimed_eq_input_valid gp hd t refOuts i t.inputs[i] refOuts[i]
        hop hginp hgro]
      exact hF
    · intro hcl
      have hall := (pyMap3_all_eq_true
        (fun inp _ uri => input_valid gp t.operation (partial_msg hd t inp) inp uri)
        t.inputs t.outputs (refOuts.map Output.condUriD)).mpr ?_
      · rw [hall]
      · intro i a b c ha hb hc
        have hi1 : i < t.inputs.length := (List.getElem?_eq_some.mp ha).1
        have hi2 : i < t.outputs.length := by
          have := (List.getElem?_eq_some.mp hb).1
          exact this
        have hi3 : i < refOuts.length := by
          have := (List.getElem?_eq_some.mp hc).1
          simpa using this
        have hgro : refOuts[i]? = some refOuts[i] := List.getElem?_eq_getElem hi3
        have hcuri : c = Output.condUriD refOuts[i] := by
          rw [List.getElem?_map, hgro] at hc
          injection hc with hc
          exact hc.symm
        have hclaim := hcl i (by omega)
        rw [claimed_eq_input_valid gp hd t refOuts i a refOuts[i] hop ha hgro]
          at hclaim
        rw [hcuri]
        exact hclaim
  · intro hlen
    rw [hred]
    unfold Transaction.inputs_valid_aux
    rw [if_pos (by simp; omega)]

/-- Witness for the amended C2 at the concrete counterexample data:
matching counts give the truncated-iff verdict, a short list raises. -/
theorem claim_C2_amended_witness :
    (Transaction.inputs_valid gpC hdC c2_tx (some [c2_ro0, c2_ro1]) = .ok true ↔
      ∀ i, i < min c2_tx.inputs.length c2_tx.outputs.length →
        claimed_input_ok gpC hdC c2_tx [c2_ro0, c2_ro1] i = true)
    ∧ Transaction.inputs_valid gpC hdC c2_tx (some [c2_ro0]) =
        .error (.valueErr "Inputs and output_condition_uris must have the same count") :=
  ⟨(claim_C2_amended gpC hdC c2_tx [c2_ro0, c2_ro1] rfl (by decide)).1 (by decide),
   (claim_C2_amended gpC hdC c2_tx [c2_ro0] rfl (by decide)).2 (by decide)⟩

/-! ## Structural lemmas on condition trees -/

mutual

def CC.size : CC → Nat
  | .ed25519 _ _ => 1
  | .threshold _ subs => 1 + CC.sizeList subs

def CC.sizeList : List CC → Nat
  | [] => 0
  | c :: cs => CC.size c + CC.sizeList cs

end

theorem CC.size_le_of_mem : ∀ (subs : List CC) (x : CC), x ∈ subs →
    CC.size x ≤ CC.sizeList subs := by
  intro subs
  induction subs with
  | nil => intro x hx; simp at hx
  | cons c cs ih =>
    intro x hx
    rcases List.mem_cons.mp hx with h | h
    · subst h
      simp [CC.sizeList]
    · have := ih x h
      simp [CC.sizeList]
      omega

/-- Induction over condition trees with a membership hypothesis for the
subtrees of a threshold node. -/
theorem CC.induction_size (P : CC → Prop)
    (hleaf : ∀ pk s, P (.ed25519 pk s))
    (hnode : ∀ k subs, (∀ c ∈ subs, P c) → P (.threshold k subs)) :
    ∀ c, P c := by
  have key : ∀ n c, CC.size c ≤ n → P c := by
    intro n
    induction n using Nat.strong_induction_on with
    | _ n ih =>
      intro c hc
      match c with
      | .ed25519 pk s => exact hleaf pk s
      | .threshold k subs =>
        refine hnode k subs ?_
        intro x hx
        have hsz : CC.size x ≤ CC.sizeList subs := CC.size_le_of_mem subs x hx
        have hlt : CC.sizeList subs < CC.size (.threshold k subs) := by
          simp [CC.size]
        exact ih (CC.sizeList subs) (by omega) x hsz
  intro c
  exact key (CC.size c) c le_rfl

theorem signMatchingList_eq (vk sk msg : String) : ∀ l : List CC,
    CC.signMatchingList vk sk msg l = l.map (CC.signMatching vk sk msg) := by
  intro l
  induction l with
  | nil => rfl
  | cons c cs ih => simp [CC.signMatchingList, ih]

theorem hasLeafVkList_eq (vk : String) : ∀ l : List CC,
    CC.hasLeafVkList vk l = l.any (CC.hasLeafVk vk) := by
  intro l
  induction l with
  | nil => rfl
  | cons c cs ih => simp [CC.hasLeafVkList, ih]

theorem fullySignedList_eq : ∀ l : List CC,
    CC.fullySignedList l = l.all CC.fullySigned := by
  intro l
  induction l with
  | nil => rfl
  | cons c cs ih => simp [CC.fullySignedList, ih]

theorem stripList_eq : ∀ l : List CC,
    CC.stripList l = l.map CC.strip := by
  intro l
  induction l with
  | nil => rfl
  | cons c cs ih => simp [CC.stripList, ih]

theorem any_congr_mem {α : Type} (p q : α → Bool) : ∀ (l : List α),
    (∀ x ∈ l, p x = q x) → l.any p = l.any q := by
  intro l
  induction l with
  | nil => intro _; rfl
  | cons a t ih =>
    intro h
    simp only [List.any_cons, h a (by simp), ih (fun x hx => h x (by simp [hx]))]

theorem all_congr_mem {α : Type} (p q : α → Bool) : ∀ (l : List α),
    (∀ x ∈ l, p x = q x) → l.all p = l.all q := by
  intro l
  induction l with
  | nil => intro _; rfl
  | cons a t ih =>
    intro h
    simp only [List.all_cons, h a (by simp), ih (fun x hx => h x (by simp [hx]))]

/-- Signing matching leaves never changes which verifying keys occur. -/
theorem hasLeafVk_signMatching (vk sk msg o : String) :
    ∀ c : CC, (CC.signMatching vk sk msg c).hasLeafVk o = c.hasLeafVk o := by
  apply CC.induction_size
  · intro pk s
    show CC.hasLeafVk o (if pk == vk then _ else _) = _
    split <;> rfl
  · intro k subs ih
    show CC.hasLeafVkList o (CC.signMatchingList vk sk msg subs) = CC.hasLeafVkList o subs
    rw [hasLeafVkList_eq, hasLeafVkList_eq, signMatchingList_eq, List.any_map]
    exact any_congr_mem _ _ subs (fun x hx => ih x hx)

/-! ## C4: missing keys make `sign` raise `KeypairMismatch` -/

/-- The claim's missing-key condition for one input: for an Ed25519 leaf,
`owners_before[0]` has no private key; for a threshold root, some
distinct owner key either has no matching leaf or no private key. -/
def required_key_missing (kps : List (String × String)) (inp : Input) : Bool :=
  match inp.fulfillment with
  | .ed25519 _ _ =>
      match inp.owners_before.head? with
      | none => false
      | some pk => (dictGet kps pk).isNone
  | .threshold _ _ =>
      (pySet inp.owners_before).any
        (fun o => !(inp.fulfillment.hasLeafVk o) || (dictGet kps o).isNone)

/-- Ed25519-leaf inputs need a non-empty owner list for
`owners_before[0]` to exist (otherwise the source raises `IndexError`
before any key lookup). -/
def sign_shape_ok (inp : Input) : Bool :=
  match inp.fulfillment with
  | .ed25519 _ _ => !inp.owners_before.isEmpty
  | .threshold _ _ => true

/-- The fulfillment produced by threshold signing: every leaf matching a
distinct owner key is signed with that owner's private key. -/
def threshold_signed (kps : List (String × String)) (msg : String)
    (owners : List String) (ff : CC) : CC :=
  (pySet owners).foldl
    (fun f o => match dictGet kps o with
                | some sk => f.signMatching o sk msg
                | none => f) ff

/-- What the claim asserts about a successfully signed input: the new
fulfillment is the old one signed against `msg` with the looked-up
private keys. -/
def signed_form (kps : List (String × String)) (msg : String)
    (inp : Input) (ff' : CC) : Prop :=
  match inp.fulfillment with
  | .ed25519 pk _ =>
      ∃ pk0 sk, inp.owners_before.head? = some pk0 ∧ dictGet kps pk0 = some sk ∧
        ff' = .ed25519 pk (some ⟨sk, msg⟩)
  | .threshold _ _ =>
      ff' = threshold_signed kps msg inp.owners_before inp.fulfillment

theorem foldlM_sign_ok (kps : List (String × String)) (msg : String) :
    ∀ (owners : List String) (ff : CC),
    (∀ o ∈ owners, ff.hasLeafVk o = true ∧ (dictGet kps o).isSome = true) →
    owners.foldlM
      (fun f owner_before => do
        if f.hasLeafVk owner_before then
          match dictGet kps owner_before with
          | none =>
              Except.error (TxError.keypairMismatch
                ("Public key " ++ owner_before ++
                 " is not a pair to any of the private keys"))
          | some sk => Except.ok (f.signMatching owner_before sk msg)
        else
          Except.error (TxError.keypairMismatch
            ("Public key " ++ owner_before ++
             " cannot be found in the fulfillment")))
      ff =
      .ok (owners.foldl
        (fun f o => match dictGet kps o with
                    | some sk => f.signMatching o sk msg
                    | none => f) ff) := by
  intro owners
  induction owners with
  | nil => intro ff _; rfl
  | cons o os ih =>
    intro ff h
    have ho := h o (by simp)
    rw [List.foldlM_cons]
    rcases hdg : dictGet kps o with _ | sk
    · rw [hdg] at ho
      simp at ho
    · rw [if_pos ho.1]
      show os.foldlM _ (ff.signMatching o sk msg) = _
      rw [ih (ff.signMatching o sk msg) ?_]
      · rw [List.foldl_cons, hdg]
      · intro o' ho'
        rw [hasLeafVk_signMatching]
        exact h o' (by simp [ho'])

theorem foldlM_sign_err (kps : List (String × String)) (msg : String) :
    ∀ (owners : List String) (ff : CC),
    (∃ o ∈ owners, ¬(ff.hasLeafVk o = true ∧ (dictGet kps o).isSome = true)) →
    ∃ m, owners.foldlM
      (fun f owner_before => do
        if f.hasLeafVk owner_before then
          match dictGet kps owner_before with
          | none =>
              Except.error (TxError.keypairMismatch
                ("Public key " ++ owner_before ++
                 " is not a pair to any of the private keys"))
          | some sk => Except.ok (f.signMatching owner_before sk msg)
        else
          Except.error (TxError.keypairMismatch
            ("Public key " ++ owner_before ++
             " cannot be found in the fulfillment")))
      ff = .error (.keypairMismatch m) := by
  intro owners
  induction owners with
  | nil =>
    intro ff h
    simp at h
  | cons o os ih =>
    intro ff h
    rw [List.foldlM_cons]
    by_cases hhl : ff.hasLeafVk o = true
    · rcases hdg : dictGet kps o with _ | sk
      · refine ⟨"Public key " ++ o ++ " is not a pair to any of the private keys", ?_⟩
        rw [if_pos hhl]
        rfl
      · rcases h with ⟨o0, ho0, hbad⟩
        rcases List.mem_cons.mp ho0 with he | he
        · subst he
          exfalso
          exact hbad ⟨hhl, by rw [hdg]; rfl⟩
        · have := ih (ff.signMatching o sk msg) ⟨o0, he, ?_⟩
          · rcases this with ⟨m, hm⟩
            refine ⟨m, ?_⟩
            rw [if_pos hhl]
            show os.foldlM _ (ff.signMatching o sk msg) = _
            exact hm
          · rw [hasLeafVk_signMatching]
            exact hbad
    · refine ⟨"Public key " ++ o ++ " cannot be found in the fulfillment", ?_⟩
      rw [if_neg hhl]
      rfl

theorem sign_input_spec (kps : List (String × String)) (msg : String)
    (inp : Input) (hshape : sign_shape_ok inp = true) :
    (required_key_missing kps inp = true →
      ∃ m, sign_input kps msg inp = .error (.keypairMismatch m))
    ∧ (required_key_missing kps inp = false →
      ∃ ff', sign_input kps msg inp = .ok { inp with fulfillment := ff' } ∧
        signed_form kps msg inp ff') := by
  obtain ⟨ff, owners, fl⟩ := inp
  cases ff with
  | ed25519 pk s =>
    unfold sign_shape_ok at hshape
    have hne : owners ≠ [] := by
      intro he
      rw [he] at hshape
      simp at hshape
    cases howners : owners with
    | nil => exact absurd howners hne
    | cons pk0 rest =>
      subst howners
      constructor
      · intro hmiss
        unfold required_key_missing at hmiss
        dsimp only at hmiss
        simp only [List.head?_cons] at hmiss
        rw [Option.isNone_iff_eq_none] at hmiss
        refine ⟨"Public key " ++ pk0 ++ " is not a pair to any of the private keys", ?_⟩
        show (match dictGet kps pk0 with
              | none => Except.error (TxError.keypairMismatch
                  ("Public key " ++ pk0 ++
                   " is not a pair to any of the private keys"))
              | some sk => Except.ok
                  ({ fulfillment := CC.leafSign sk msg (.ed25519 pk s),
                     owners_before := pk0 :: rest, fulfills := fl } : Input)) = _
        rw [hmiss]
      · intro hmiss
        unfold required_key_missing at hmiss
        dsimp only at hmiss
        simp only [List.head?_cons] at hmiss
        rcases hk : dictGet kps pk0 with _ | sk
        · rw [hk] at hmiss
          simp at hmiss
        · refine ⟨.ed25519 pk (some ⟨sk, msg⟩), ?_, ?_⟩
          · show (match dictGet kps pk0 with
                  | none => Except.error (TxError.keypairMismatch
                      ("Public key " ++ pk0 ++
                       " is not a pair to any of the private keys"))
                  | some sk => Except.ok
                      ({ fulfillment := CC.leafSign sk msg (.ed25519 pk s),
                         owners_before := pk0 :: rest, fulfills := fl } : Input)) = _
            rw [hk]
            rfl
          · exact ⟨pk0, sk, rfl, hk, rfl⟩
  | threshold k subs =>
    constructor
    · intro hmiss
      unfold required_key_missing at hmiss
      dsimp only at hmiss
      rw [List.any_eq_true] at hmiss
      rcases hmiss with ⟨o, ho, hbad⟩
      have hbad' : ¬((CC.threshold k subs).hasLeafVk o = true ∧
          (dictGet kps o).isSome = true) := by
        intro hgood
        rw [Bool.or_eq_true] at hbad
        rcases hbad with hb | hb
        · rw [hgood.1] at hb
          simp at hb
        · rw [Option.isNone_iff_eq_none] at hb
          rw [hb] at hgood
          simp at hgood
      have hfe := foldlM_sign_err kps msg (pySet owners) (.threshold k subs)
        ⟨o, ho, hbad'⟩
      rcases hfe with ⟨m, hm⟩
      refine ⟨m, ?_⟩
      show (do
        let ff2 ← (pySet owners).foldlM _ (CC.threshold k subs)
        Except.ok ({ fulfillment := ff2, owners_before := owners,
                     fulfills := fl } : Input)) = _
      rw [hm]
      rfl
    · intro hmiss
      unfold required_key_missing at hmiss
      dsimp only at hmiss
      have hgood : ∀ o ∈ pySet owners,
          (CC.threshold k subs).hasLeafVk o = true ∧
          (dictGet kps o).isSome = true := by
        intro o ho
        have hfalse : (!(CC.hasLeafVk o (CC.threshold k subs)) ||
            (dictGet kps o).isNone) = false := by
          cases hb : (!(CC.hasLeafVk o (CC.threshold k subs)) ||
              (dictGet kps o).isNone) with
          | false => rfl
          | true =>
            exfalso
            have : (pySet owners).any
                (fun o => !(CC.hasLeafVk o (CC.threshold k subs)) ||
                  (dictGet kps o).isNone) = true :=
              List.any_eq_true.mpr ⟨o, ho, hb⟩
            rw [hmiss] at this
            exact Bool.noConfusion this
        rw [Bool.or_eq_false_iff] at hfalse
        constructor
        · have h1 := hfalse.1
          rw [Bool.not_eq_false'] at h1
          exact h1
        · rcases hdg : dictGet kps o with _ | sk
          · rw [hdg] at hfalse
            simp at hfalse
          · rfl
      have hfo := foldlM_sign_ok kps msg (pySet owners) (.threshold k subs) hgood
      refine ⟨threshold_signed kps msg owners (.threshold k subs), ?_, rfl⟩
      show (do
        let ff2 ← (pySet owners).foldlM _ (CC.threshold k subs)
        Except.ok ({ fulfillment := ff2, owners_before := owners,
                     fulfills := fl } : Input)) = _
      rw [hfo]
      rfl

theorem mapM_error_kpm (f : Input → Except TxError Input) :
    ∀ (l : List Input),
    (∀ x ∈ l, (∃ y, f x = .ok y) ∨ (∃ m, f x = .error (.keypairMismatch m))) →
    (∃ x ∈ l, ∃ m, f x = .error (.keypairMismatch m)) →
    ∃ m, l.mapM f = .error (.keypairMismatch m) := by
  intro l
  induction l with
  | nil =>
    intro _ hex
    simp at hex
  | cons a t ih =>
    intro hall hex
    rcases hcase : f a with e | y
    · have := hall a (by simp)
      rcases this with ⟨y, hy⟩ | ⟨m, hm⟩
      · rw [hcase] at hy
        exact Except.noConfusion hy
      · rw [hcase] at hm
        injection hm with hm
        refine ⟨m, ?_⟩
        rw [List.mapM_cons, hcase, hm]
        rfl
    · rcases hex with ⟨x, hx, m, hxm⟩
      rcases List.mem_cons.mp hx with he | he
      · subst he
        rw [hcase] at hxm
        exact Except.noConfusion hxm
      · have := ih (fun x hx => hall x (by simp [hx])) ⟨x, he, m, hxm⟩
        rcases this with ⟨m', hm'⟩
        refine ⟨m', ?_⟩
        rw [List.mapM_cons, hcase, hm']
        rfl

theorem mapM_ok_pointwise (f : Input → Except TxError Input) :
    ∀ (l l' : List Input), l.mapM f = .ok l' →
    l'.length = l.length ∧
    ∀ (i : Nat) (x : Input), l[i]? = some x →
      ∃ y, f x = .ok y ∧ l'[i]? = some y := by
  intro l
  induction l with
  | nil =>
    intro l' h
    have : l' = [] := by
      rw [show ([] : List Input).mapM f = .ok [] from rfl] at h
      injection h with h
      exact h.symm
    subst this
    refine ⟨rfl, ?_⟩
    intro i x hx
    simp at hx
  | cons a t ih =>
    intro l' h
    rw [List.mapM_cons] at h
    rcases hcase : f a with e | y
    · rw [hcase] at h
      exact Except.noConfusion h
    · rw [hcase] at h
      rcases hrest : t.mapM f with e2 | t'
      · rw [hrest] at h
        exact Except.noConfusion h
      · rw [hrest] at h
        have hl' : l' = y :: t' := by
          injection h with h
          exact h.symm
        subst hl'
        have := ih t' hrest
        refine ⟨by simp [this.1], ?_⟩
        intro i x hx
        cases i with
        | zero =>
          simp only [List.getElem?_cons_zero, Option.some.injEq] at hx
          subst hx
          exact ⟨y, hcase, by simp⟩
        | succ j =>
          simp only [List.getElem?_cons_succ] at hx ⊢
          exact this.2 j x hx

/-- CLAIM C4: `sign` raises `KeypairMismatch` whenever a required key is
missing — for an Ed25519 input, when `owners_before[0]` has no private
key; for a threshold input, when some distinct owner has no matching
leaf or no private key — and on success every input is replaced by a
copy signed against the canonical serialization of the
signature-stripped partial transaction holding only that input. -/
theorem claim_C4 (gp hd : String → String) (t : Transaction) (sks : List String)
    (hwf : t.inputs.all sign_shape_ok = true) :
    ((∃ inp ∈ t.inputs, required_key_missing (mkKeyPairs gp sks) inp = true) →
      ∃ m, Transaction.sign gp hd t sks = .error (.keypairMismatch m))
    ∧ (∀ t' : Transaction, Transaction.sign gp hd t sks = .ok t' →
        t'.operation = t.operation ∧ t'.asset = t.asset ∧ t'.outputs = t.outputs ∧
        t'.metadata = t.metadata ∧ t'.version = t.version ∧
        t'.inputs.length = t.inputs.length ∧
        ∀ (i : Nat) (inp : Input), t.inputs[i]? = some inp →
          ∃ ff', t'.inputs[i]? = some { inp with fulfillment := ff' } ∧
            signed_form (mkKeyPairs gp sks) (partial_msg hd t inp) inp ff') := by
  set kps := mkKeyPairs gp sks with hkps
  set f : Input → Except TxError Input :=
    fun inp => sign_input kps (partial_msg hd t inp) inp with hf
  have hsign_eq : Transaction.sign gp hd t sks =
      (t.inputs.mapM f >>= fun ni => Except.ok { t with inputs := ni }) := rfl
  have hnotmiss : ∀ x : Input, ¬ required_key_missing kps x = true →
      required_key_missing kps x = false := by
    intro x hx
    cases hmv : required_key_missing kps x with
    | false => rfl
    | true => exact absurd hmv hx
  have hall : ∀ x ∈ t.inputs,
      (∃ y, f x = .ok y) ∨ (∃ m, f x = .error (.keypairMismatch m)) := by
    intro x hx
    have hsh := List.all_eq_true.mp hwf x hx
    by_cases hm : required_key_missing kps x = true
    · right
      exact (sign_input_spec kps _ x hsh).1 hm
    · left
      rcases (sign_input_spec kps _ x hsh).2 (hnotmiss x hm) with ⟨ff', hok, _⟩
      exact ⟨_, hok⟩
  constructor
  · rintro ⟨inp, hmem, hmiss⟩
    have hmm := mapM_error_kpm f t.inputs hall
      ⟨inp, hmem,
        (sign_input_spec kps _ inp (List.all_eq_true.mp hwf inp hmem)).1 hmiss⟩
    rcases hmm with ⟨m, hm⟩
    refine ⟨m, ?_⟩
    rw [hsign_eq, hm]
    rfl
  · intro t' ht'
    rw [hsign_eq] at ht'
    rcases hM : t.inputs.mapM f with e | ni
    · rw [hM] at ht'
      exact Except.noConfusion ht'
    · rw [hM] at ht'
      have ht'' : t' = { t with inputs := ni } := by
        have h2 : Except.ok (ε := TxError) { t with inputs := ni } =
            Except.ok t' := ht'
        injection h2 with h2
        exact h2.symm
      subst ht''
      have hpw := mapM_ok_pointwise f t.inputs ni hM
      refine ⟨rfl, rfl, rfl, rfl, rfl, by simp [hpw.1], ?_⟩
      intro i inp hi
      have hmem : inp ∈ t.inputs := List.getElem?_mem hi
      have hsh := List.all_eq_true.mp hwf inp hmem
      rcases hpw.2 i inp hi with ⟨y, hok, hgy⟩
      simp only [hf] at hok
      by_cases hms : required_key_missing kps inp = true
      · rcases (sign_input_spec kps _ inp hsh).1 hms with ⟨m, hm⟩
        rw [hm] at hok
        exact Except.noConfusion hok
      · rcases (sign_input_spec kps _ inp hsh).2 (hnotmiss inp hms) with
          ⟨ff', hok2, hform⟩
        refine ⟨ff', ?_, hform⟩
        rw [hok2] at hok
        injection hok with h
        show ni[i]? = some _
        rw [h]
        exact hgy

def c4_inp : Input := ⟨.ed25519 "Apub" none, ["Apub"], none⟩

def c4_tx : Transaction :=
  { operation := "CREATE", asset := some (.obj [("data", .null)]),
    inputs := [c4_inp], outputs := [], metadata := none, version := "0.9" }

/-- Witness for C4: signing with an empty key list raises
`KeypairMismatch` for the single-owner input. -/
theorem claim_C4_witness :
    ∃ m, Transaction.sign (fun s => s ++ "pub") hdC c4_tx [] =
      .error (.keypairMismatch m) :=
  (claim_C4 (fun s => s ++ "pub") hdC c4_tx [] (by decide)).1
    ⟨c4_inp, by simp [c4_tx], by decide⟩

/-! ## C7: validation succeeds right after signing -/

theorem dictGet_map_gp (gp : String → String) :
    ∀ (l : List String) (k sk : String),
    List.lookup k (l.map (fun s => (gp s, s))) = some sk → gp sk = k := by
  intro l
  induction l with
  | nil => intro k sk h; simp [List.lookup] at h
  | cons a t ih =>
    intro k sk h
    rw [List.map_cons, List.lookup_cons] at h
    by_cases hk : (k == gp a) = true
    · rw [hk] at h
      have h2 : some a = some sk := h
      injection h2 with h2
      subst h2
      exact (eq_of_beq hk).symm
    · have hkf : (k == gp a) = false := by
        cases hb : (k == gp a) with
        | false => rfl
        | true => exact absurd hb hk
      rw [hkf] at h
      exact ih k sk h

theorem dictGet_mkKeyPairs (gp : String → String) (sks : List String)
    (k sk : String) (h : dictGet (mkKeyPairs gp sks) k = some sk) :
    gp sk = k := by
  unfold dictGet mkKeyPairs at h
  rw [← List.map_reverse] at h
  exact dictGet_map_gp gp sks.reverse k sk h

theorem mem_pySet_aux : ∀ (l acc : List String) (x : String),
    x ∈ l.foldl (fun acc s => if acc.contains s then acc else acc ++ [s]) acc ↔
      (x ∈ acc ∨ x ∈ l) := by
  intro l
  induction l with
  | nil => intro acc x; simp
  | cons a t ih =>
    intro acc x
    rw [List.foldl_cons]
    by_cases hc : acc.contains a = true
    · rw [if_pos hc]
      rw [ih]
      have ha : a ∈ acc := by simpa using hc
      constructor
      · rintro (h | h)
        · exact Or.inl h
        · exact Or.inr (by simp [h])
      · rintro (h | h)
        · exact Or.inl h
        · rcases List.mem_cons.mp h with he | he
          · subst he
            exact Or.inl ha
          · exact Or.inr he
    · rw [if_neg hc]
      rw [ih]
      constructor
      · rintro (h | h)
        · rcases List.mem_append.mp h with he | he
          · exact Or.inl he
          · simp at he
            subst he
            exact Or.inr (by simp)
        · exact Or.inr (by simp [h])
      · rintro (h | h)
        · exact Or.inl (List.mem_append.mpr (Or.inl h))
        · rcases List.mem_cons.mp h with he | he
          · subst he
            exact Or.inl (List.mem_append.mpr (Or.inr (by simp)))
          · exact Or.inr he

theorem mem_pySet (l : List String) (x : String) : x ∈ pySet l ↔ x ∈ l := by
  unfold pySet
  rw [mem_pySet_aux]
  simp

mutual

/-- Whether every Ed25519 leaf's public key occurs among `owners`. -/
def CC.leaves_covered (owners : List String) : CC → Bool
  | .ed25519 pk _ => owners.contains pk
  | .threshold _ subs => CC.leaves_covered_list owners subs

def CC.leaves_covered_list (owners : List String) : List CC → Bool
  | [] => true
  | c :: cs => CC.leaves_covered owners c && CC.leaves_covered_list owners cs

end

mutual

/-- Whether every threshold node asks for at most as many valid subnodes
as it has (as the N-of-N trees built by `Output.generate` do). -/
def CC.thresholds_sound : CC → Bool
  | .ed25519 _ _ => true
  | .threshold k subs => (decide (k ≤ subs.length)) && CC.thresholds_sound_list subs

def CC.thresholds_sound_list : List CC → Bool
  | [] => true
  | c :: cs => CC.thresholds_sound c && CC.thresholds_sound_list cs

end

theorem leaves_covered_list_eq (owners : List String) : ∀ l : List CC,
    CC.leaves_covered_list owners l = l.all (CC.leaves_covered owners) := by
  intro l
  induction l with
  | nil => rfl
  | cons c cs ih => simp [CC.leaves_covered_list, ih]

theorem thresholds_sound_list_eq : ∀ l : List CC,
    CC.thresholds_sound_list l = l.all CC.thresholds_sound := by
  intro l
  induction l with
  | nil => rfl
  | cons c cs ih => simp [CC.thresholds_sound_list, ih]

theorem leaves_covered_pySet (owners : List String) :
    ∀ c, CC.leaves_covered owners c = CC.leaves_covered (pySet owners) c := by
  apply CC.induction_size
  · intro pk s
    show owners.contains pk = (pySet owners).contains pk
    by_cases h : pk ∈ owners
    · rw [show owners.contains pk = true by simpa using h,
        show (pySet owners).contains pk = true by
          simpa using (mem_pySet owners pk).mpr h]
    · have h2 : pk ∉ pySet owners := fun hc => h ((mem_pySet owners pk).mp hc)
      cases hc1 : owners.contains pk with
      | false =>
        cases hc2 : (pySet owners).contains pk with
        | false => rfl
        | true => exact absurd (by simpa using hc2) h2
      | true => exact absurd (by simpa using hc1) h
  · intro k subs ih
    show CC.leaves_covered_list owners subs = CC.leaves_covered_list (pySet owners) subs
    rw [leaves_covered_list_eq, leaves_covered_list_eq]
    exact all_congr_mem _ _ subs ih

/-- The fold over the owner set performed by threshold signing. -/
def fold_sign (kps : List (String × String)) (msg : String)
    (os : List String) (ff : CC) : CC :=
  os.foldl (fun f o => match dictGet kps o with
            | some sk => f.signMatching o sk msg
            | none => f) ff

theorem threshold_signed_eq_fold (kps : List (String × String)) (msg : String)
    (owners : List String) (ff : CC) :
    threshold_signed kps msg owners ff = fold_sign kps msg (pySet owners) ff := rfl

theorem fold_sign_cons (kps : List (String × String)) (msg o : String)
    (os : List String) (ff : CC) :
    fold_sign kps msg (o :: os) ff =
      fold_sign kps msg os
        (match dictGet kps o with
         | some sk => ff.signMatching o sk msg
         | none => ff) := rfl

theorem map_congr_mem {α β : Type} (f g : α → β) : ∀ (l : List α),
    (∀ x ∈ l, f x = g x) → l.map f = l.map g := by
  intro l
  induction l with
  | nil => intro _; rfl
  | cons a t ih =>
    intro h
    simp only [List.map_cons, h a (by simp), ih (fun x hx => h x (by simp [hx]))]

theorem fold_sign_threshold (kps : List (String × String)) (msg : String) :
    ∀ (os : List String) (k : Nat) (subs : List CC),
    fold_sign kps msg os (.threshold k subs) =
      .threshold k (subs.map (fold_sign kps msg os)) := by
  intro os
  induction os with
  | nil =>
    intro k subs
    show CC.threshold k subs = CC.threshold k (subs.map (fun c => c))
    rw [map_congr_mem (fun c => c) id subs (fun _ _ => rfl), List.map_id]
  | cons o os ih =>
    intro k subs
    rw [fold_sign_cons]
    rcases hdg : dictGet kps o with _ | sk
    · rw [ih]
      congr 1
      apply map_congr_mem
      intro x _
      rw [fold_sign_cons, hdg]
    · show fold_sign kps msg os (.threshold k (CC.signMatchingList o sk msg subs)) = _
      rw [signMatchingList_eq, ih, List.map_map]
      congr 1
      apply map_congr_mem
      intro x _
      show fold_sign kps msg os (x.signMatching o sk msg) = _
      rw [fold_sign_cons, hdg]

theorem fold_sign_leaf_notmem (kps : List (String × String)) (msg : String) :
    ∀ (os : List String) (pk : String) (s : Option Sig), pk ∉ os →
    fold_sign kps msg os (.ed25519 pk s) = .ed25519 pk s := by
  intro os
  induction os with
  | nil => intro pk s _; rfl
  | cons o os ih =>
    intro pk s hmem
    have hne : pk ≠ o := fun he => hmem (by simp [he])
    have hnos : pk ∉ os := fun he => hmem (by simp [he])
    rw [fold_sign_cons]
    rcases hdg : dictGet kps o with _ | sk
    · exact ih pk s hnos
    · show fold_sign kps msg os (if (pk == o) = true then _ else _) = _
      rw [if_neg (by simp [hne])]
      exact ih pk s hnos

theorem fold_sign_leaf_mem (kps : List (String × String)) (msg : String) :
    ∀ (os : List String) (pk : String) (s : Option Sig),
    (∀ o ∈ os, (dictGet kps o).isSome = true) → pk ∈ os →
    ∃ sk, dictGet kps pk = some sk ∧
      fold_sign kps msg os (.ed25519 pk s) = .ed25519 pk (some ⟨sk, msg⟩) := by
  intro os
  induction os with
  | nil => intro pk s _ hmem; simp at hmem
  | cons o os ih =>
    intro pk s hkeys hmem
    rw [fold_sign_cons]
    by_cases he : pk = o
    · subst he
      rcases hdg : dictGet kps pk with _ | sk
      · have := hkeys pk (by simp)
        rw [hdg] at this
        simp at this
      · show ∃ sk', _ ∧ fold_sign kps msg os (if (pk == pk) = true then
            CC.ed25519 pk (some ⟨sk, msg⟩) else CC.ed25519 pk s) = _
        rw [if_pos (by simp)]
        by_cases hmos : pk ∈ os
        · rcases ih pk (some ⟨sk, msg⟩) (fun o ho => hkeys o (by simp [ho])) hmos
            with ⟨sk', hsk', hfold⟩
          exact ⟨sk', hdg ▸ hsk', hfold⟩
        · exact ⟨sk, rfl, fold_sign_leaf_notmem kps msg os pk _ hmos⟩
    · have hmos : pk ∈ os := by
        rcases List.mem_cons.mp hmem with h | h
        · exact absurd h he
        · exact h
      rcases hdg : dictGet kps o with _ | sk
      · exact ih pk s (fun o' ho' => hkeys o' (by simp [ho'])) hmos
      · show ∃ sk', _ ∧ fold_sign kps msg os (if (pk == o) = true then _ else
            CC.ed25519 pk s) = _
        rw [if_neg (by simp [he])]
        exact ih pk s (fun o' ho' => hkeys o' (by simp [ho'])) hmos

theorem countValid_of_all_valid (gp : String → String) (msg : String) :
    ∀ l : List CC, (∀ c ∈ l, CC.validate gp msg c = true) →
    CC.countValid gp msg l = l.length := by
  intro l
  induction l with
  | nil => intro _; rfl
  | cons c cs ih =>
    intro h
    show (if CC.validate gp msg c then 1 else 0) + CC.countValid gp msg cs = cs.length + 1
    rw [if_pos (h c (by simp)), ih (fun x hx => h x (by simp [hx]))]
    omega

/-- After folding the signing step over a covered, sound tree with all
keys available, the tree is fully signed and validates. -/
theorem after_fold_good (gp : String → String) (kps : List (String × String))
    (msg : String) (os : List String)
    (hgp : ∀ o sk, dictGet kps o = some sk → gp sk = o)
    (hkeys : ∀ o ∈ os, (dictGet kps o).isSome = true) :
    ∀ c, CC.leaves_covered os c = true → CC.thresholds_sound c = true →
      CC.fullySigned (fold_sign kps msg os c) = true ∧
      CC.validate gp msg (fold_sign kps msg os c) = true := by
  apply CC.induction_size
  · intro pk s hcov _
    have hmem : pk ∈ os := by
      have : os.contains pk = true := hcov
      simpa using this
    rcases fold_sign_leaf_mem kps msg os pk s hkeys hmem with ⟨sk, hsk, hfold⟩
    rw [hfold]
    refine ⟨rfl, ?_⟩
    show (gp sk == pk && (msg == msg)) = true
    rw [hgp pk sk hsk]
    simp
  · intro k subs ih hcov hsound
    have hcov' : ∀ c ∈ subs, CC.leaves_covered os c = true := by
      have : CC.leaves_covered_list os subs = true := hcov
      rw [leaves_covered_list_eq] at this
      exact fun c hc => List.all_eq_true.mp this c hc
    have hsound' : ∀ c ∈ subs, CC.thresholds_sound c = true := by
      have h2 : (decide (k ≤ subs.length) && CC.thresholds_sound_list subs) = true :=
        hsound
      rw [Bool.and_eq_true, thresholds_sound_list_eq] at h2
      exact fun c hc => List.all_eq_true.mp h2.2 c hc
    have hk : k ≤ subs.length := by
      have h2 : (decide (k ≤ subs.length) && CC.thresholds_sound_list subs) = true :=
        hsound
      rw [Bool.and_eq_true] at h2
      exact of_decide_eq_true h2.1
    rw [fold_sign_threshold]
    constructor
    · show CC.fullySignedList (subs.map (fold_sign kps msg os)) = true
      rw [fullySignedList_eq, List.all_eq_true]
      intro x hx
      rcases List.mem_map.mp hx with ⟨c, hc, he⟩
      subst he
      exact (ih c hc (hcov' c hc) (hsound' c hc)).1
    · show decide (k ≤ CC.countValid gp msg (subs.map (fold_sign kps msg os))) = true
      rw [countValid_of_all_valid gp msg]
      · rw [List.length_map]
        exact decide_eq_true hk
      · intro x hx
        rcases List.mem_map.mp hx with ⟨c, hc, he⟩
        subst he
        exact (ih c hc (hcov' c hc) (hsound' c hc)).2

theorem strip_signMatching (vk sk msg : String) :
    ∀ c : CC, (CC.signMatching vk sk msg c).strip = c.strip := by
  apply CC.induction_size
  · intro pk s
    show CC.strip (if (pk == vk) = true then _ else _) = _
    split <;> rfl
  · intro k subs ih
    show CC.threshold k (CC.stripList (CC.signMatchingList vk sk msg subs)) =
      CC.threshold k (CC.stripList subs)
    rw [stripList_eq, stripList_eq, signMatchingList_eq, List.map_map]
    congr 1
    apply map_congr_mem
    intro x hx
    exact ih x hx

theorem strip_fold_sign (kps : List (String × String)) (msg : String) :
    ∀ (os : List String) (c : CC), (fold_sign kps msg os c).strip = c.strip := by
  intro os
  induction os with
  | nil => intro c; rfl
  | cons o os ih =>
    intro c
    rw [fold_sign_cons]
    rcases hdg : dictGet kps o with _ | sk
    · exact ih c
    · rw [ih (c.signMatching o sk msg), strip_signMatching]

theorem conditionUri_fold_sign (kps : List (String × String)) (msg : String)
    (os : List String) (c : CC) :
    (fold_sign kps msg os c).conditionUri = c.conditionUri := by
  unfold CC.conditionUri
  rw [strip_fold_sign]

/-- The signing message and the validation message of an input agree:
both strip the fulfillment, so only the operation, asset, outputs,
metadata, version, owner keys and link enter the serialization. -/
theorem partial_msg_congr (hd : String → String) (t t' : Transaction)
    (inp inp' : Input)
    (hop : t'.operation = t.operation) (has : t'.asset = t.asset)
    (hout : t'.outputs = t.outputs) (hmd : t'.metadata = t.metadata)
    (hv : t'.version = t.version)
    (how : inp'.owners_before = inp.owners_before)
    (hfl : inp'.fulfills = inp.fulfills) :
    partial_msg hd t' inp' = partial_msg hd t inp := by
  have hbody : Transaction.remove_signatures
      (Transaction.to_dict_body { t' with inputs := [inp'] }) =
      Transaction.remove_signatures
        (Transaction.to_dict_body { t with inputs := [inp] }) := by
    show TxDict.mk
        [⟨inp'.owners_before, inp'.fulfills.bind TransactionLink.to_dict, none⟩]
        (t'.outputs.map Output.to_dict) t'.operation t'.metadata t'.asset
        t'.version none =
      TxDict.mk
        [⟨inp.owners_before, inp.fulfills.bind TransactionLink.to_dict, none⟩]
        (t.outputs.map Output.to_dict) t.operation t.metadata t.asset
        t.version none
    rw [how, hfl, hout, hop, hmd, has, hv]
  show serialize
      { Transaction.remove_signatures
          (Transaction.to_dict_body { t' with inputs := [inp'] }) with
        id := some (hd (serialize (Transaction.remove_signatures
          (Transaction.to_dict_body { t' with inputs := [inp'] })))) } =
    serialize
      { Transaction.remove_signatures
          (Transaction.to_dict_body { t with inputs := [inp] }) with
        id := some (hd (serialize (Transaction.remove_signatures
          (Transaction.to_dict_body { t with inputs := [inp] })))) }
  rw [hbody]

/-- Well-formedness used by the validation-symmetry claim: an Ed25519
input's first owner is the leaf's public key (as `Input.generate`
produces); a threshold input's leaves are all owned and its thresholds
are within bounds (as the N-of-N trees of `Output.generate` are). -/
def wf_input (inp : Input) : Bool :=
  match inp.fulfillment with
  | .ed25519 pk _ => inp.owners_before.head? == some pk
  | .threshold _ _ =>
      CC.leaves_covered inp.owners_before inp.fulfillment &&
      CC.thresholds_sound inp.fulfillment

theorem wf_imp_shape (inp : Input) (h : wf_input inp = true) :
    sign_shape_ok inp = true := by
  obtain ⟨ff, owners, fl⟩ := inp
  cases ff with
  | ed25519 pk s =>
    have h2 : owners.head? = some pk := by
      have h3 : (owners.head? == some pk) = true := h
      exact eq_of_beq h3
    cases owners with
    | nil => exact Option.noConfusion h2
    | cons a t => rfl
  | threshold k subs => rfl

theorem not_missing_good (kps : List (String × String)) (inp : Input)
    (k : Nat) (subs : List CC) (hff : inp.fulfillment = .threshold k subs)
    (hnm : required_key_missing kps inp = false) :
    ∀ o ∈ pySet inp.owners_before,
      inp.fulfillment.hasLeafVk o = true ∧ (dictGet kps o).isSome = true := by
  obtain ⟨ff, owners, fl⟩ := inp
  subst hff
  intro o ho
  unfold required_key_missing at hnm
  dsimp only at hnm ho ⊢
  have hfalse : (!(CC.hasLeafVk o (CC.threshold k subs)) ||
      (dictGet kps o).isNone) = false := by
    cases hb : (!(CC.hasLeafVk o (CC.threshold k subs)) ||
        (dictGet kps o).isNone) with
    | false => rfl
    | true =>
      exfalso
      have h4 : (pySet owners).any
          (fun o => !(CC.hasLeafVk o (CC.threshold k subs)) ||
            (dictGet kps o).isNone) = true :=
        List.any_eq_true.mpr ⟨o, ho, hb⟩
      rw [hnm] at h4
      exact Bool.noConfusion h4
  rw [Bool.or_eq_false_iff] at hfalse
  constructor
  · have h1 := hfalse.1
    rw [Bool.not_eq_false'] at h1
    exact h1
  · rcases hdg : dictGet kps o with _ | sk
    · rw [hdg] at hfalse
      simp at hfalse
    · rfl

theorem signed_form_conditionUri (kps : List (String × String)) (msg : String)
    (inp : Input) (ff' : CC) (hform : signed_form kps msg inp ff') :
    ff'.conditionUri = inp.fulfillment.conditionUri := by
  obtain ⟨ff, owners, fl⟩ := inp
  cases ff with
  | ed25519 pk s =>
    rcases hform with ⟨pk0, sk, _, _, he⟩
    subst he
    rfl
  | threshold k subs =>
    have he : ff' = threshold_signed kps msg owners (.threshold k subs) := hform
    subst he
    rw [threshold_signed_eq_fold]
    exact conditionUri_fold_sign kps msg (pySet owners) (.threshold k subs)

/-- A signed input validates: its URI serializes and parses, and the
signatures verify against the (identical) partial-transaction message. -/
theorem signed_input_valid (gp hd : String → String) (sks : List String)
    (t t' : Transaction) (inp : Input) (ff' : CC) (uri : String)
    (hwf1 : wf_input inp = true)
    (hnm : required_key_missing (mkKeyPairs gp sks) inp = false)
    (hform : signed_form (mkKeyPairs gp sks) (partial_msg hd t inp) inp ff')
    (hteq : t'.operation = t.operation ∧ t'.asset = t.asset ∧
      t'.outputs = t.outputs ∧ t'.metadata = t.metadata ∧ t'.version = t.version)
    (hcond : (t.operation == Transaction.CREATE ||
        t.operation == Transaction.GENESIS) = true ∨
      (uri == ff'.conditionUri) = true) :
    input_valid gp t'.operation
      (partial_msg hd t' { inp with fulfillment := ff' })
      { inp with fulfillment := ff' } uri = true := by
  have hmsg : partial_msg hd t' { inp with fulfillment := ff' } =
      partial_msg hd t inp :=
    partial_msg_congr hd t t' inp { inp with fulfillment := ff' }
      hteq.1 hteq.2.1 hteq.2.2.1 hteq.2.2.2.1 hteq.2.2.2.2 rfl rfl
  rw [hmsg]
  have hout_valid : (if (t'.operation == Transaction.CREATE ||
      t'.operation == Transaction.GENESIS) = true then true
      else uri == ff'.conditionUri) = true := by
    rw [hteq.1]
    rcases hcond with h | h
    · rw [if_pos h]
    · split
      · rfl
      · exact h
  have hfs_val : CC.fullySigned ff' = true ∧
      CC.validate gp (partial_msg hd t inp) ff' = true := by
    obtain ⟨ff, owners, fl⟩ := inp
    cases ff with
    | ed25519 pk s =>
      rcases hform with ⟨pk0, sk, hhead, hdg, he⟩
      subst he
      have hpk0 : pk0 = pk := by
        have h2 : (owners.head? == some pk) = true := hwf1
        have h3 := eq_of_beq h2
        rw [hhead] at h3
        injection h3 with h3
      refine ⟨rfl, ?_⟩
      show (gp sk == pk && (partial_msg hd t _ == partial_msg hd t _)) = true
      rw [dictGet_mkKeyPairs gp sks pk0 sk hdg, hpk0]
      simp
    | threshold k subs =>
      have he : ff' = threshold_signed (mkKeyPairs gp sks)
          (partial_msg hd t ⟨.threshold k subs, owners, fl⟩) owners
          (.threshold k subs) := hform
      subst he
      rw [threshold_signed_eq_fold]
      have hgood := not_missing_good (mkKeyPairs gp sks)
        ⟨.threshold k subs, owners, fl⟩ k subs rfl hnm
      have hwf2 : (CC.leaves_covered owners (.threshold k subs) &&
          CC.thresholds_sound (.threshold k subs)) = true := hwf1
      rw [Bool.and_eq_true] at hwf2
      have hcov : CC.leaves_covered (pySet owners) (.threshold k subs) = true := by
        rw [← leaves_covered_pySet]
        exact hwf2.1
      exact after_fold_good gp (mkKeyPairs gp sks) _ (pySet owners)
        (fun o sk h => dictGet_mkKeyPairs gp sks o sk h)
        (fun o ho => (hgood o ho).2)
        (.threshold k subs) hcov hwf2.2
  unfold input_valid
  have hser : CC.serializeUri ff' = some ff' := by
    unfold CC.serializeUri
    rw [if_pos hfs_val.1]
  dsimp only
  rw [hser]
  rw [Bool.and_eq_true]
  constructor
  · rcases hcond with h | h
    · rw [hteq.1]
      rw [if_pos h]
    · split
      · rfl
      · exact h
  · exact hfs_val.2

/-- The referenced outputs the claim supplies to `inputs_valid`: none
for CREATE/GENESIS, and for TRANSFER a list matching the inputs in
count whose condition URIs equal the inputs' fulfillment condition URIs. -/
def matching_outputs (t : Transaction) : Option (List Output) → Bool
  | none => t.operation == Transaction.CREATE || t.operation == Transaction.GENESIS
  | some outs =>
      (t.operation == Transaction.TRANSFER) &&
      (outs.length == t.inputs.length) &&
      (List.range outs.length).all (fun i =>
        match outs[i]?, t.inputs[i]? with
        | some o, some inp =>
            (match o.fulfillment with
             | .cc f => f.conditionUri == inp.fulfillment.conditionUri
             | .strF _ => false)
        | _, _ => false)

/-- CLAIM C7: `inputs_valid` is true immediately after a successful
`sign` with matching keys — with no referenced outputs for
CREATE/GENESIS, and with count- and condition-matching referenced
outputs for TRANSFER. -/
theorem claim_C7 (gp hd : String → String) (t : Transaction) (sks : List String)
    (t' : Transaction) (outsOpt : Option (List Output))
    (hwf : t.inputs.all wf_input = true)
    (hsign : Transaction.sign gp hd t sks = .ok t')
    (houts : matching_outputs t outsOpt = true) :
    Transaction.inputs_valid gp hd t' outsOpt = .ok true := by
  set kps := mkKeyPairs gp sks with hkps
  set f : Input → Except TxError Input :=
    fun inp => sign_input kps (partial_msg hd t inp) inp with hf
  have hsign_eq : Transaction.sign gp hd t sks =
      (t.inputs.mapM f >>= fun ni => Except.ok { t with inputs := ni }) := rfl
  rw [hsign_eq] at hsign
  rcases hM : t.inputs.mapM f with e | ni
  · rw [hM] at hsign
    exact Except.noConfusion hsign
  · rw [hM] at hsign
    have ht'' : t' = { t with inputs := ni } := by
      have h2 : Except.ok (ε := TxError) { t with inputs := ni } =
          Except.ok t' := hsign
      injection h2 with h2
      exact h2.symm
    subst ht''
    have hpw := mapM_ok_pointwise f t.inputs ni hM
    have hni : ∀ (i : Nat) (y : Input), ni[i]? = some y →
        ∃ inp ff', t.inputs[i]? = some inp ∧
          y = { inp with fulfillment := ff' } ∧
          wf_input inp = true ∧ required_key_missing kps inp = false ∧
          signed_form kps (partial_msg hd t inp) inp ff' := by
      intro i y hy
      have hi : i < ni.length := (List.getElem?_eq_some.mp hy).1
      have hi' : i < t.inputs.length := by
        rw [hpw.1] at hi
        exact hi
      have hx : t.inputs[i]? = some t.inputs[i] := List.getElem?_eq_getElem hi'
      rcases hpw.2 i _ hx with ⟨y', hok, hg⟩
      have hyy : y' = y := by
        rw [hy] at hg
        injection hg with hg
        exact hg.symm
      subst hyy
      simp only [hf] at hok
      have hmem : t.inputs[i] ∈ t.inputs := List.getElem?_mem hx
      have hwfi := List.all_eq_true.mp hwf _ hmem
      have hsh := wf_imp_shape _ hwfi
      by_cases hms : required_key_missing kps t.inputs[i] = true
      · rcases (sign_input_spec kps _ _ hsh).1 hms with ⟨m, hm⟩
        rw [hm] at hok
        exact Except.noConfusion hok
      · have hms' : required_key_missing kps t.inputs[i] = false := by
          cases hmv : required_key_missing kps t.inputs[i] with
          | false => rfl
          | true => exact absurd hmv hms
        rcases (sign_input_spec kps _ _ hsh).2 hms' with ⟨ff', hok2, hform⟩
        rw [hok2] at hok
        injection hok with hok
        exact ⟨t.inputs[i], ff', hx, hok.symm, hwfi, hms', hform⟩
    have hlen_ni : ni.length = t.inputs.length := hpw.1
    cases outsOpt with
    | none =>
      have hcg : (t.operation == Transaction.CREATE ||
          t.operation == Transaction.GENESIS) = true := houts
      show Transaction.inputs_valid gp hd { t with inputs := ni } none = .ok true
      unfold Transaction.inputs_valid
      dsimp only
      rw [if_pos hcg]
      unfold Transaction.inputs_valid_aux
      dsimp only
      rw [if_neg (by rw [List.length_map]; exact fun h => h rfl)]
      congr 1
      apply (pyMap3_all_eq_true
        (fun inp _ uri => input_valid gp t.operation
          (partial_msg hd { t with inputs := ni } inp) inp uri)
        ni t.outputs (ni.map (fun _ => "dummyvalue"))).mpr
      intro i a b c ha hb hc
      rcases hni i a ha with ⟨inp, ff', hx, hay, hwfi, hnm, hform⟩
      subst hay
      have hcval : c = "dummyvalue" := by
        rw [List.getElem?_map, ha] at hc
        injection hc with hc
        exact hc.symm
      subst hcval
      exact signed_input_valid gp hd sks t { t with inputs := ni } inp ff'
        "dummyvalue" hwfi hnm hform ⟨rfl, rfl, rfl, rfl, rfl⟩ (Or.inl hcg)
    | some outs =>
      have h3 : ((t.operation == Transaction.TRANSFER) &&
          (outs.length == t.inputs.length) &&
          (List.range outs.length).all (fun i =>
            match outs[i]?, t.inputs[i]? with
            | some o, some inp =>
                (match o.fulfillment with
                 | .cc f => f.conditionUri == inp.fulfillment.conditionUri
                 | .strF _ => false)
            | _, _ => false)) = true := houts
      rw [Bool.and_eq_true, Bool.and_eq_true] at h3
      have hopT : t.operation = Transaction.TRANSFER := eq_of_beq h3.1.1
      have hlen : outs.length = t.inputs.length := by
        have := h3.1.2
        exact eq_of_beq this
      have hrange := h3.2
      have hallcc : outs.all Output.isCC = true := by
        rw [List.all_eq_true]
        intro o ho
        rcases List.mem_iff_getElem.mp ho with ⟨i, hilen, hoe⟩
        have hcondi := List.all_eq_true.mp hrange i
          (List.mem_range.mpr hilen)
        have hoi : outs[i]? = some o := by
          rw [List.getElem?_eq_getElem hilen, hoe]
        rw [hoi] at hcondi
        have hii : i < t.inputs.length := by omega
        have hxi : t.inputs[i]? = some t.inputs[i] := List.getElem?_eq_getElem hii
        rw [hxi] at hcondi
        have hcondi2 : (match o.fulfillment with
            | OutFulfillment.cc fcc =>
                fcc.conditionUri == (t.inputs[i]).fulfillment.conditionUri
            | OutFulfillment.strF _ => false) = true := hcondi
        unfold Output.isCC
        rcases hofc : o.fulfillment with fcc | s
        · rfl
        · rw [hofc] at hcondi2
          exact Bool.noConfusion hcondi2
      show Transaction.inputs_valid gp hd { t with inputs := ni } (some outs) = .ok true
      unfold Transaction.inputs_valid
      dsimp only
      rw [if_neg (by rw [hopT]; decide), if_pos (by rw [hopT]; rfl)]
      show (do
        let uris ← outs.mapM Output.condition_uri_of
        Transaction.inputs_valid_aux gp hd { t with inputs := ni } uris) = _
      rw [mapM_condition_uri outs hallcc]
      show Transaction.inputs_valid_aux gp hd { t with inputs := ni }
        (outs.map Output.condUriD) = _
      unfold Transaction.inputs_valid_aux
      dsimp only
      rw [if_neg (by rw [List.length_map]; omega)]
      congr 1
      apply (pyMap3_all_eq_true
        (fun inp _ uri => input_valid gp t.operation
          (partial_msg hd { t with inputs := ni } inp) inp uri)
        ni t.outputs (outs.map Output.condUriD)).mpr
      intro i a b c ha hb hc
      rcases hni i a ha with ⟨inp, ff', hx, hay, hwfi, hnm, hform⟩
      subst hay
      have hilen : i < outs.length := by
        have := (List.getElem?_eq_some.mp ha).1
        omega
      have hoi : outs[i]? = some outs[i] := List.getElem?_eq_getElem hilen
      have hcval : c = Output.condUriD outs[i] := by
        rw [List.getElem?_map, hoi] at hc
        injection hc with hc
        exact hc.symm
      have hcondi := List.all_eq_true.mp hrange i (List.mem_range.mpr hilen)
      rw [hoi, hx] at hcondi
      have hcondi2 : (match (outs[i]).fulfillment with
          | OutFulfillment.cc fcc =>
              fcc.conditionUri == inp.fulfillment.conditionUri
          | OutFulfillment.strF _ => false) = true := hcondi
      have hcond2 : (c == ff'.conditionUri) = true := by
        rcases hofc : (outs[i]).fulfillment with fcc | s
        · rw [hofc] at hcondi2
          have hcu : Output.condUriD outs[i] = fcc.conditionUri := by
            unfold Output.condUriD
            rw [hofc]
          have hfe : fcc.conditionUri = inp.fulfillment.conditionUri :=
            eq_of_beq hcondi2
          rw [hcval, hcu, hfe,
            signed_form_conditionUri kps (partial_msg hd t inp) inp ff' hform]
          simp
        · rw [hofc] at hcondi2
          exact Bool.noConfusion hcondi2
      exact signed_input_valid gp hd sks t { t with inputs := ni } inp ff' c
        hwfi hnm hform ⟨rfl, rfl, rfl, rfl, rfl⟩ (Or.inr hcond2)

def c7_gp : String → String := fun s => s ++ "pub"

def c7_inp : Input := ⟨.ed25519 "apub" none, ["apub"], none⟩

def c7_out : Output := ⟨.cc (.ed25519 "apub" none), some ["apub"], 1⟩

def c7_tx : Transaction :=
  { operation := "CREATE", asset := some (.obj [("data", .null)]),
    inputs := [c7_inp], outputs := [c7_out], metadata := none,
    version := "0.9" }

def c7_signed : Transaction :=
  match Transaction.sign c7_gp hdC c7_tx ["a"] with
  | .ok t => t
  | .error _ => c7_tx

set_option maxRecDepth 100000 in
/-- Witness for C7: a concrete single-owner CREATE transaction signed
with the matching key validates. -/
theorem claim_C7_witness :
    Transaction.inputs_valid c7_gp hdC c7_signed none = .ok true :=
  claim_C7 c7_gp hdC c7_tx ["a"] c7_signed none (by decide) (by rfl) (by decide)

/-! ## C5: serialization round-trips -/

theorem link_roundtrip : ∀ (fl : Option TransactionLink),
    (some (TransactionLink.from_dict (fl.bind TransactionLink.to_dict))).bind
      TransactionLink.to_dict = fl.bind TransactionLink.to_dict := by
  intro fl
  cases fl with
  | none => rfl
  | some l =>
    show TransactionLink.to_dict (TransactionLink.from_dict l.to_dict) = l.to_dict
    by_cases h : l.txid = none ∧ l.output = none
    · have hd1 : l.to_dict = none := by
        unfold TransactionLink.to_dict
        rw [if_pos h]
      rw [hd1]
      show TransactionLink.to_dict ⟨none, none⟩ = none
      unfold TransactionLink.to_dict
      rw [if_pos ⟨rfl, rfl⟩]
    · have hd1 : l.to_dict = some ⟨l.txid, l.output⟩ := by
        unfold TransactionLink.to_dict
        rw [if_neg h]
      rw [hd1]
      show TransactionLink.to_dict ⟨l.txid, l.output⟩ = some ⟨l.txid, l.output⟩
      unfold TransactionLink.to_dict
      dsimp only
      rw [if_neg h]

theorem input_roundtrip (inp : Input) :
    ∃ inp', Input.from_dict (Input.to_dict inp) = .ok inp' ∧
      Input.to_dict inp' = Input.to_dict inp := by
  obtain ⟨ff, owners, fl⟩ := inp
  refine ⟨(⟨ff, owners, some (TransactionLink.from_dict
    (fl.bind TransactionLink.to_dict))⟩ : Input), ?_, ?_⟩
  · unfold Input.to_dict Input.from_dict
    dsimp only
    rcases hs : ff.serializeUri with _ | u
    · rfl
    · have hu : u = ff := serializeUri_some_eq hs
      subst hu
      rfl
  · unfold Input.to_dict
    dsimp only
    rw [link_roundtrip fl]

theorem output_roundtrip (o : Output) (h1 : 1 ≤ o.amount)
    (h2 : o.amount ≤ Output.MAX_AMOUNT) :
    Output.from_dict (Output.to_dict o) = .ok o := by
  obtain ⟨ff, pks, amount⟩ := o
  dsimp only at h1 h2
  have hparse : pyInt? (pyStr amount) = some amount :=
    pyInt?_pyStr amount (by omega)
  cases ff with
  | cc f =>
    have hstep : Output.from_dict ⟨pks, ⟨some f, f.conditionUri⟩, pyStr amount⟩ =
        Output.init (.cc f) pks amount := by
      unfold Output.from_dict
      rw [hparse]
    show Output.from_dict ⟨pks, ⟨some f, f.conditionUri⟩, pyStr amount⟩ = _
    rw [hstep]
    unfold Output.init
    rw [if_neg (by omega), if_neg (by omega)]
  | strF s =>
    have hstep : Output.from_dict ⟨pks, ⟨none, s⟩, pyStr amount⟩ =
        Output.init (.strF s) pks amount := by
      unfold Output.from_dict
      rw [hparse]
    show Output.from_dict ⟨pks, ⟨none, s⟩, pyStr amount⟩ = _
    rw [hstep]
    unfold Output.init
    rw [if_neg (by omega), if_neg (by omega)]

theorem validate_id_to_dict (hd : String → String) (t : Transaction) :
    Transaction.validate_id hd (Transaction.to_dict hd t) = .ok () := by
  have heq : Transaction.txid hd t =
      hd (serialize (Transaction.remove_signatures
        { Transaction.to_dict hd t with id := none })) := rfl
  show (if Transaction.txid hd t =
      hd (serialize (Transaction.remove_signatures
        { Transaction.to_dict hd t with id := none })) then Except.ok ()
      else Except.error (TxError.invalidHash (Transaction.txid hd t))) =
    Except.ok ()
  rw [if_pos heq]

theorem mapM_input_roundtrip : ∀ (l : List Input),
    ∃ l', (l.map Input.to_dict).mapM Input.from_dict = .ok l' ∧
      l'.map Input.to_dict = l.map Input.to_dict := by
  intro l
  induction l with
  | nil => exact ⟨[], rfl, rfl⟩
  | cons a t ih =>
    rcases input_roundtrip a with ⟨a', ha, ha2⟩
    rcases ih with ⟨t', ht, ht2⟩
    refine ⟨a' :: t', ?_, ?_⟩
    · rw [List.map_cons, List.mapM_cons, ha, ht]
      rfl
    · rw [List.map_cons, List.map_cons, ha2, ht2]

theorem mapM_output_roundtrip : ∀ (l : List Output),
    (∀ o ∈ l, 1 ≤ o.amount ∧ o.amount ≤ Output.MAX_AMOUNT) →
    (l.map Output.to_dict).mapM Output.from_dict = .ok l := by
  intro l
  induction l with
  | nil => intro _; rfl
  | cons a t ih =>
    intro h
    have ha := h a (by simp)
    rw [List.map_cons, List.mapM_cons,
      output_roundtrip a ha.1 ha.2, ih (fun o ho => h o (by simp [ho]))]
    rfl

/-- Binding an `Except.ok` just feeds the value through. -/
theorem exbind_ok {α β : Type} (a : α) (f : α → Except TxError β) :
    (Except.ok a : Except TxError α) >>= f = f a := rfl

/-- Well-formedness of a transaction value: its fields satisfy the checks
`Transaction.__init__` performs (operation allowed, asset shape, metadata a
dict or `None`) and every output amount lies in `1 ..= MAX_AMOUNT` (the
checks `Output.__init__` performs when the transaction is built). -/
def wf_tx (t : Transaction) : Bool :=
  (Transaction.ALLOWED_OPERATIONS.contains t.operation) &&
  !((t.operation == Transaction.CREATE || t.operation == Transaction.GENESIS) &&
      t.asset.isSome && !(objHasKey t.asset "data")) &&
  !(t.operation == Transaction.TRANSFER && !(objHasKey t.asset "id")) &&
  isObjOpt t.metadata &&
  t.outputs.all (fun o => decide (1 ≤ o.amount) && decide (o.amount ≤ Output.MAX_AMOUNT))

theorem from_to_step (hd : String → String) (t : Transaction)
    (hwf : wf_tx t = true) :
    ∃ t', Transaction.from_dict hd (Transaction.to_dict hd t) = .ok t' ∧
      Transaction.to_dict hd t' = Transaction.to_dict hd t ∧ wf_tx t' = true := by
  simp only [wf_tx, Bool.and_eq_true] at hwf
  obtain ⟨⟨⟨⟨h1, h2⟩, h3⟩, h4⟩, h5⟩ := hwf
  have h2' : ((t.operation == Transaction.CREATE ||
      t.operation == Transaction.GENESIS) && t.asset.isSome &&
      !(objHasKey t.asset "data")) = false := by
    cases hx : ((t.operation == Transaction.CREATE ||
        t.operation == Transaction.GENESIS) && t.asset.isSome &&
        !(objHasKey t.asset "data")) with
    | false => rfl
    | true => rw [hx] at h2; exact absurd h2 (by decide)
  have h3' : (t.operation == Transaction.TRANSFER &&
      !(objHasKey t.asset "id")) = false := by
    cases hx : (t.operation == Transaction.TRANSFER &&
        !(objHasKey t.asset "id")) with
    | false => rfl
    | true => rw [hx] at h3; exact absurd h3 (by decide)
  have hout : ∀ o ∈ t.outputs, 1 ≤ o.amount ∧ o.amount ≤ Output.MAX_AMOUNT := by
    intro o ho
    simpa using List.all_eq_true.mp h5 o ho
  rcases mapM_input_roundtrip t.inputs with ⟨l', hmi, hmi2⟩
  have hmo := mapM_output_roundtrip t.outputs hout
  refine ⟨{ operation := t.operation, asset := t.asset, inputs := l',
            outputs := t.outputs, metadata := t.metadata,
            version := t.version }, ?_, ?_, ?_⟩
  · have hdi : (Transaction.to_dict hd t).inputs =
        t.inputs.map Input.to_dict := rfl
    have hdo : (Transaction.to_dict hd t).outputs =
        t.outputs.map Output.to_dict := rfl
    have hdop : (Transaction.to_dict hd t).operation = t.operation := rfl
    have hda : (Transaction.to_dict hd t).asset = t.asset := rfl
    have hdm : (Transaction.to_dict hd t).metadata = t.metadata := rfl
    have hdv : (Transaction.to_dict hd t).version = t.version := rfl
    unfold Transaction.from_dict
    rw [validate_id_to_dict hd t]
    simp only [exbind_ok]
    rw [hdi, hmi]
    simp only [exbind_ok]
    rw [hdo, hmo]
    simp only [exbind_ok]
    rw [hdop, hda, hdm, hdv]
    unfold Transaction.init
    rw [if_neg (show ¬((!(Transaction.ALLOWED_OPERATIONS.contains
          t.operation)) = true) by rw [h1]; decide),
        if_neg (by simp [h2']), if_neg (by simp [h3']),
        if_neg (by simp [h4])]
    rfl
  · have hbody : Transaction.to_dict_body
        { operation := t.operation, asset := t.asset, inputs := l',
          outputs := t.outputs, metadata := t.metadata,
          version := t.version } = Transaction.to_dict_body t := by
      unfold Transaction.to_dict_body
      dsimp only
      rw [hmi2]
    unfold Transaction.to_dict
    rw [hbody]
  · simp only [wf_tx, Bool.and_eq_true]
    exact ⟨⟨⟨⟨h1, h2⟩, h3⟩, h4⟩, h5⟩

/-- `n` serialize/deserialize cycles starting from `t`: each cycle runs
`Transaction.from_dict` on the `Transaction.to_dict` form of the previous
result. -/
def tx_cycles (hd : String → String) (t : Transaction) :
    Nat → Except TxError Transaction
  | 0 => .ok t
  | n + 1 => (tx_cycles hd t n).bind
      (fun tn => Transaction.from_dict hd (Transaction.to_dict hd tn))

/-- C5: for every well-formed transaction `t`, deserializing its serialized
map form succeeds, and the result is equal to `t` in the sense of
`Transaction.__eq__` (which compares the `to_dict` forms); this equality is
preserved through arbitrarily many serialize/deserialize cycles. -/
theorem claim_C5 (hd : String → String) (t : Transaction)
    (hwf : wf_tx t = true) (n : Nat) :
    ∃ tn, tx_cycles hd t n = .ok tn ∧
      Transaction.to_dict hd tn = Transaction.to_dict hd t := by
  suffices h : ∃ tn, tx_cycles hd t n = .ok tn ∧
      Transaction.to_dict hd tn = Transaction.to_dict hd t ∧
      wf_tx tn = true by
    rcases h with ⟨tn, hc, he, _⟩
    exact ⟨tn, hc, he⟩
  induction n with
  | zero => exact ⟨t, rfl, rfl, hwf⟩
  | succ n ih =>
    rcases ih with ⟨tn, hc, he, hw⟩
    rcases from_to_step hd tn hw with ⟨tn', g1, g2, g3⟩
    refine ⟨tn', ?_, ?_, g3⟩
    · show (tx_cycles hd t n).bind _ = _
      rw [hc]
      show Transaction.from_dict hd (Transaction.to_dict hd tn) = _
      rw [g1]
    · rw [g2, he]

/-- C5 witness: two serialize/deserialize cycles on a concrete well-formed
transaction succeed and preserve its dictionary form. -/
theorem claim_C5_witness :
    wf_tx c7_tx = true ∧ ∃ tn, tx_cycles hdC c7_tx 2 = .ok tn ∧
      Transaction.to_dict hdC tn = Transaction.to_dict hdC c7_tx :=
  ⟨by decide, claim_C5 hdC c7_tx (by decide) 2⟩
